import Mathlib

/-!
Verification of the pachyderm PFS core specification against the repository
sources.  The repository snapshot contains the PFS server test-suite
(`src/server/pfs/server/testing/server_test.go`), the request-validation
wrapper (`src/server/pfs/server/val_server.go`) and the generated protobuf
code for the fileset index (`src/internal/storage/fileset/index/index.pb.go`).
The provenance/propagation/squash engine and the fileset layer themselves are
not part of the snapshot, so those components are modelled from the
specification text and checked against the behaviour pinned down by the
test-suite; the validation wrapper and the index serialization are embedded
directly from the Go sources.
-/

namespace FileSetModel

/-- Modelled from the spec: a write to an open commit is buffered as an
ordered log of operations, either a put of a path with content or a delete of
a path (prefix or exact).  The fileset implementation is not in the snapshot;
this follows the contract in section 4.5 of the spec. -/
inductive FileOp where
  | put (path : String) (content : String)
  | del (path : String)
deriving DecidableEq, Repr

/-- Modelled from the spec: a delete of path `p` removes `p` itself and every
strict descendant of `p`; a delete of the root "/" removes everything. -/
def underPath (p q : String) : Bool :=
  p == "/" || q == p || (p ++ "/").isPrefixOf q

/-- Modelled from the spec: apply one operation to the merged file map.  A put
replaces any existing entry for the path and a delete removes every entry at
or under the deleted path. -/
def applyOp (files : List (String × String)) : FileOp → List (String × String)
  | .put p c => (files.filter (fun e => e.1 != p)) ++ [(p, c)]
  | .del p => files.filter (fun e => !underPath p e.1)

/-- Modelled from the spec: the merged, tombstone-applied file set of one
commit is the fold of the operation log in write order over the empty map. -/
def mergedFiles (ops : List FileOp) : List (String × String) :=
  ops.foldl applyOp []

/-- Modelled from the spec: a minimal glob matcher; the double star pattern
matches every path, which is the only pattern the tombstone-ordering scenario
exercises. -/
def globMatch (pattern : String) (path : String) : Bool :=
  if pattern == "**" then true else pattern == path

/-- Modelled from the spec: a glob query is evaluated against the final
merged, tombstone-applied path set, not the raw operation log. -/
def globFileAll (ops : List FileOp) (pattern : String) : List (String × String) :=
  (mergedFiles ops).filter (fun e => globMatch pattern e.1)

/-- Modelled from the spec: reading a single file from the merged view. -/
def getFile (ops : List FileOp) (p : String) : Option String :=
  ((mergedFiles ops).find? (fun e => e.1 == p)).map (·.2)

end FileSetModel

namespace ValServer

/-! Embedding of `src/server/pfs/server/val_server.go`.  The protobuf request
types have pointer-valued fields, which are embedded as `Option`; a Go nil
pointer dereference is embedded as the `deref` outcome. -/

/-- The `pfs.Repo` message: the validation layer only reads its name. -/
structure Repo where
  name : String
deriving DecidableEq, Repr

/-- The `pfs.Branch` message with its pointer field `Repo`. -/
structure Branch where
  repo : Option Repo
  name : String
deriving DecidableEq, Repr

/-- The `pfs.Commit` message with its pointer field `Branch`. -/
structure Commit where
  branch : Option Branch
  id : String
deriving DecidableEq, Repr

/-- The `pfs.File` message with its pointer field `Commit`. -/
structure File where
  commit : Option Commit
  path : String
deriving DecidableEq, Repr

/-- The `pfs.ClearCommitRequest` message. -/
structure ClearCommitRequest where
  commit : Option Commit
deriving DecidableEq, Repr

/-- The `pfs.GlobFileRequest` message (validation-relevant fields). -/
structure GlobFileRequest where
  commit : Option Commit
  pattern : String
deriving DecidableEq, Repr

/-- The `pfs.WalkFileRequest` message (validation-relevant fields). -/
structure WalkFileRequest where
  file : Option File
deriving DecidableEq, Repr

/-- Outcome of running a Go handler: a normal error return, a nil-pointer
dereference (which panics the goroutine), or success carrying the repo name
that validation hands to the authorization check. -/
inductive GoOutcome where
  | err (msg : String)
  | deref
  | ok (repoName : String)
deriving DecidableEq, Repr

/-- Embeds `validateFile` from val_server.go lines 156-170: each nesting
level is checked for nil before the next is read. -/
def validateFile : Option File → Option String
  | none => some "file cannot be nil"
  | some f =>
    match f.commit with
    | none => some "file commit cannot be nil"
    | some c =>
      match c.branch with
      | none => some "file branch cannot be nil"
      | some b =>
        match b.repo with
        | none => some "file commit repo cannot be nil"
        | some _ => none

/-- Embeds `validatedAPIServer.WalkFile` (val_server.go lines 98-117) up to
the authorization call: the same four nil checks inline, then the repo name
is read. -/
def walkFile (request : WalkFileRequest) : GoOutcome :=
  match request.file with
  | none => .err "file cannot be nil"
  | some f =>
    match f.commit with
    | none => .err "file commit cannot be nil"
    | some c =>
      match c.branch with
      | none => .err "file branch cannot be nil"
      | some b =>
        match b.repo with
        | none => .err "file commit repo cannot be nil"
        | some r => .ok r.name

/-- Embeds `validatedAPIServer.GlobFile` (val_server.go lines 128-144): nil
checks on commit, branch and repo before the repo name is read. -/
def globFile (request : GlobFileRequest) : GoOutcome :=
  match request.commit with
  | none => .err "commit cannot be nil"
  | some c =>
    match c.branch with
    | none => .err "commit branch cannot be nil"
    | some b =>
      match b.repo with
      | none => .err "commit repo cannot be nil"
      | some r => .ok r.name

/-- Embeds `validatedAPIServer.ClearCommit` (val_server.go lines 146-154).
The handler checks only `req.Commit == nil` and then immediately reads
`req.Commit.Branch.Repo.Name`; when `Branch` (or `Repo`) is nil that read is
a Go nil-pointer dereference, embedded as `.deref`. -/
def clearCommit (req : ClearCommitRequest) : GoOutcome :=
  match req.commit with
  | none => .err "commit cannot be nil"
  | some c =>
    match c.branch with
    | none => .deref
    | some b =>
      match b.repo with
      | none => .deref
      | some r => .ok r.name

end ValServer

namespace FileSetModel

/-- C3: within one open commit, deletions are tombstones applied in write
order rather than path order.  Putting "/f", deleting "/", then putting "/f"
again leaves "/f" present with the second content; putting "/f" and then
deleting "/" as the final operation leaves the merged file set empty, so a
glob over the double-star pattern returns zero entries; and a delete of "/"
followed by a put of "/x" leaves "/x" present. -/
theorem c3_tombstone_write_order :
    getFile [.put "/f" "a", .del "/", .put "/f" "b"] "/f" = some "b"
      ∧ mergedFiles [.put "/f" "a", .del "/"] = []
      ∧ globFileAll [.put "/f" "a", .del "/"] "**" = []
      ∧ getFile [.del "/", .put "/x" "v"] "/x" = some "v" := by
  refine ⟨by decide, by decide, by decide, by decide⟩

end FileSetModel

namespace ValServer

/-- C9: the validated API server is meant to reject any request with a nil
required field with a validation error and never dereference nil, and
`validateFile`, `WalkFile` and `GlobFile` indeed check every nesting level;
but `ClearCommit` checks only that `Commit` itself is non-nil and then reads
`req.Commit.Branch.Repo.Name`, so a request whose commit has a nil branch
(or a nil repo inside the branch) hits a nil-pointer dereference instead of
returning an invalid-argument error. -/
theorem c9_clear_commit_nil_branch_deref :
    validateFile none = some "file cannot be nil"
      ∧ validateFile (some ⟨none, "p"⟩) = some "file commit cannot be nil"
      ∧ validateFile (some ⟨some ⟨none, "c"⟩, "p"⟩) = some "file branch cannot be nil"
      ∧ validateFile (some ⟨some ⟨some ⟨none, "b"⟩, "c"⟩, "p"⟩)
          = some "file commit repo cannot be nil"
      ∧ globFile ⟨some ⟨none, "c"⟩, "*"⟩ = .err "commit branch cannot be nil"
      ∧ walkFile ⟨some ⟨some ⟨none, "c"⟩, "p"⟩⟩ = .err "file branch cannot be nil"
      ∧ clearCommit ⟨none⟩ = .err "commit cannot be nil"
      ∧ clearCommit ⟨some ⟨none, "c"⟩⟩ = .deref
      ∧ clearCommit ⟨some ⟨some ⟨none, "b"⟩, "c"⟩⟩ = .deref := by
  refine ⟨rfl, rfl, rfl, rfl, rfl, rfl, rfl, rfl, rfl⟩

end ValServer

namespace BranchProv

/-! Spec-model of the branch provenance engine (spec sections 3 and 4.1).
The engine itself is not in the snapshot; branches are natural numbers, the
graph is an association list from branch to direct provenance, and the cached
transitive closures are computed by saturating a step function, exactly as
the spec prescribes for the derived provenance and subvenance fields. -/

abbrev Graph := List (Nat × List Nat)

def direct (g : Graph) (b : Nat) : List Nat :=
  ((g.find? (fun e => e.1 == b)).map (·.2)).getD []

def nodes (g : Graph) : Finset Nat :=
  g.foldr (fun e acc => insert e.1 (e.2.foldr insert acc)) ∅

def stepF (nbr : Nat → List Nat) (S : Finset Nat) : Finset Nat :=
  S ∪ S.biUnion (fun a => (nbr a).toFinset)

def iterF (nbr : Nat → List Nat) : Nat → Finset Nat → Finset Nat
  | 0, S => S
  | n + 1, S => iterF nbr n (stepF nbr S)

def edgeRel (nbr : Nat → List Nat) (a b : Nat) : Prop := b ∈ nbr a

def provenance (g : Graph) (b : Nat) : Finset Nat :=
  iterF (direct g) (nodes g).card (direct g b).toFinset

def rdirect (g : Graph) (b : Nat) : List Nat :=
  (g.filter (fun e => e.2.contains b)).map (·.1)

def subvenance (g : Graph) (b : Nat) : Finset Nat :=
  iterF (rdirect g) (nodes g).card (rdirect g b).toFinset

def setDirectProvenance (g : Graph) (b : Nat) (ps : List Nat) : Graph :=
  let gNew := (b, ps) :: g.filter (fun e => e.1 != b)
  if b ∈ provenance gNew b then g else gNew

def applyOps (ops : List (Nat × List Nat)) : Graph :=
  ops.foldl (fun g e => setDirectProvenance g e.1 e.2) []

-- generic saturation lemmas

theorem subset_stepF (nbr : Nat → List Nat) (S : Finset Nat) : S ⊆ stepF nbr S :=
  Finset.subset_union_left

theorem stepF_mono {nbr : Nat → List Nat} {S T : Finset Nat} (h : S ⊆ T) :
    stepF nbr S ⊆ stepF nbr T := by
  unfold stepF
  intro x hx
  rcases Finset.mem_union.1 hx with hx | hx
  · exact Finset.mem_union_left _ (h hx)
  · rcases Finset.mem_biUnion.1 hx with ⟨a, ha, hxa⟩
    exact Finset.mem_union_right _ (Finset.mem_biUnion.2 ⟨a, h ha, hxa⟩)

theorem subset_iterF (nbr : Nat → List Nat) (n : Nat) (S : Finset Nat) :
    S ⊆ iterF nbr n S := by
  induction n generalizing S with
  | zero => exact le_refl S
  | succ n ih => exact (subset_stepF nbr S).trans (ih (stepF nbr S))

theorem iterF_succ_outer (nbr : Nat → List Nat) (n : Nat) (S : Finset Nat) :
    iterF nbr (n + 1) S = stepF nbr (iterF nbr n S) := by
  induction n generalizing S with
  | zero => rfl
  | succ n ih =>
    show iterF nbr (n + 1) (stepF nbr S) = stepF nbr (iterF nbr (n + 1) S)
    rw [ih (stepF nbr S)]
    rfl

theorem iterF_fixed {nbr : Nat → List Nat} {S : Finset Nat}
    (h : stepF nbr S = S) (n : Nat) : iterF nbr n S = S := by
  induction n with
  | zero => rfl
  | succ n ih => rw [iterF_succ_outer, ih, h]

theorem iterF_add (nbr : Nat → List Nat) (m n : Nat) (S : Finset Nat) :
    iterF nbr (m + n) S = iterF nbr n (iterF nbr m S) := by
  induction m generalizing S with
  | zero => rw [Nat.zero_add]; rfl
  | succ m ih =>
    rw [Nat.succ_add]
    show iterF nbr (m + n) (stepF nbr S) = _
    rw [ih (stepF nbr S)]
    rfl

theorem iterF_subset_univ {nbr : Nat → List Nat} {U : Finset Nat}
    (hedg : ∀ a x, x ∈ nbr a → x ∈ U) {S : Finset Nat} (hS : S ⊆ U)
    (n : Nat) : iterF nbr n S ⊆ U := by
  induction n generalizing S with
  | zero => exact hS
  | succ n ih =>
    refine ih ?_
    intro x hx
    rcases Finset.mem_union.1 hx with hx | hx
    · exact hS hx
    · rcases Finset.mem_biUnion.1 hx with ⟨a, _, hxa⟩
      exact hedg a x (List.mem_toFinset.1 hxa)

theorem card_succ_of_not_fixed {nbr : Nat → List Nat} {S : Finset Nat}
    (h : stepF nbr S ≠ S) : S.card + 1 ≤ (stepF nbr S).card := by
  have hss : S ⊂ stepF nbr S :=
    Finset.ssubset_iff_subset_ne.2 ⟨subset_stepF nbr S, fun he => h he.symm⟩
  exact Finset.card_lt_card hss

theorem iterF_stabilizes {nbr : Nat → List Nat} {U : Finset Nat}
    (hedg : ∀ a x, x ∈ nbr a → x ∈ U) {S : Finset Nat} (hS : S ⊆ U) :
    stepF nbr (iterF nbr U.card S) = iterF nbr U.card S := by
  by_cases hfix : ∃ i, i ≤ U.card ∧ stepF nbr (iterF nbr i S) = iterF nbr i S
  · rcases hfix with ⟨i, hi, hfixed⟩
    have : iterF nbr U.card S = iterF nbr i S := by
      have hsplit : U.card = i + (U.card - i) := by omega
      rw [hsplit, iterF_add, iterF_fixed hfixed]
    rw [this, hfixed]
  · push_neg at hfix
    exfalso
    have grow : ∀ i, i ≤ U.card + 1 → i ≤ (iterF nbr i S).card := by
      intro i hi
      induction i with
      | zero => exact Nat.zero_le _
      | succ i ih =>
        have h1 : i ≤ (iterF nbr i S).card := ih (by omega)
        have h2 := card_succ_of_not_fixed (hfix i (by omega))
        rw [iterF_succ_outer]
        omega
    have h1 := grow (U.card + 1) (le_refl _)
    have h2 : (iterF nbr (U.card + 1) S).card ≤ U.card :=
      Finset.card_le_card (iterF_subset_univ hedg hS _)
    omega

theorem iterF_closed {nbr : Nat → List Nat} {U : Finset Nat}
    (hedg : ∀ a x, x ∈ nbr a → x ∈ U) {S : Finset Nat} (hS : S ⊆ U)
    {x y : Nat} (hx : x ∈ iterF nbr U.card S) (hy : y ∈ nbr x) :
    y ∈ iterF nbr U.card S := by
  have hfix := @iterF_stabilizes nbr U hedg S hS
  rw [← hfix]
  exact Finset.mem_union_right _ (Finset.mem_biUnion.2 ⟨x, hx, List.mem_toFinset.2 hy⟩)

theorem mem_iterF_to_reach {nbr : Nat → List Nat} {x : Nat} :
    ∀ {n : Nat} {S : Finset Nat}, x ∈ iterF nbr n S →
      ∃ s ∈ S, Relation.ReflTransGen (edgeRel nbr) s x := by
  intro n
  induction n with
  | zero => exact fun hx => ⟨x, hx, Relation.ReflTransGen.refl⟩
  | succ n ih =>
    intro S hx
    rcases ih hx with ⟨s, hs, hreach⟩
    rcases Finset.mem_union.1 hs with hs | hs
    · exact ⟨s, hs, hreach⟩
    · rcases Finset.mem_biUnion.1 hs with ⟨a, ha, hsa⟩
      exact ⟨a, ha, Relation.ReflTransGen.head (List.mem_toFinset.1 hsa) hreach⟩

theorem reach_to_mem_iterF {nbr : Nat → List Nat} {U : Finset Nat}
    (hedg : ∀ a x, x ∈ nbr a → x ∈ U) {S : Finset Nat} (hS : S ⊆ U)
    {s x : Nat} (hs : s ∈ S) (h : Relation.ReflTransGen (edgeRel nbr) s x) :
    x ∈ iterF nbr U.card S := by
  induction h with
  | refl => exact subset_iterF nbr U.card S hs
  | tail _ hstep ih => exact iterF_closed hedg hS ih hstep

theorem mem_iterF_iff_reach {nbr : Nat → List Nat} {U : Finset Nat}
    (hedg : ∀ a x, x ∈ nbr a → x ∈ U) {S : Finset Nat} (hS : S ⊆ U) {x : Nat} :
    x ∈ iterF nbr U.card S ↔ ∃ s ∈ S, Relation.ReflTransGen (edgeRel nbr) s x :=
  ⟨mem_iterF_to_reach, fun ⟨s, hs, h⟩ => reach_to_mem_iterF hedg hS hs h⟩

-- graph-specific universe facts

theorem mem_foldr_insert_of_mem_acc (l : List Nat) (acc : Finset Nat) (y : Nat)
    (h : y ∈ acc) : y ∈ l.foldr insert acc := by
  induction l with
  | nil => exact h
  | cons a l ihl => exact Finset.mem_insert_of_mem ihl

theorem mem_foldr_insert_of_mem_list (l : List Nat) (acc : Finset Nat) (x : Nat)
    (h : x ∈ l) : x ∈ l.foldr insert acc := by
  induction l with
  | nil => cases h
  | cons a l ihl =>
    rcases List.mem_cons.1 h with h | h
    · subst h; exact Finset.mem_insert_self _ _
    · exact Finset.mem_insert_of_mem (ihl h)

theorem mem_nodes_of_mem {g : Graph} {e : Nat × List Nat} (he : e ∈ g) :
    e.1 ∈ nodes g ∧ ∀ x ∈ e.2, x ∈ nodes g := by
  induction g with
  | nil => cases he
  | cons f g ih =>
    have base : ∀ y, y ∈ nodes g → y ∈ nodes (f :: g) := by
      intro y hy
      exact Finset.mem_insert_of_mem (mem_foldr_insert_of_mem_acc f.2 (nodes g) y hy)
    rcases List.mem_cons.1 he with he | he
    · subst he
      constructor
      · exact Finset.mem_insert_self _ _
      · intro x hx
        exact Finset.mem_insert_of_mem (mem_foldr_insert_of_mem_list e.2 (nodes g) x hx)
    · rcases ih he with ⟨h1, h2⟩
      exact ⟨base _ h1, fun x hx => base _ (h2 x hx)⟩

theorem direct_target_mem_nodes (g : Graph) (a x : Nat) (hx : x ∈ direct g a) :
    x ∈ nodes g := by
  unfold direct at hx
  cases hfind : g.find? (fun e => e.1 == a) with
  | none => rw [hfind] at hx; cases hx
  | some e =>
    rw [hfind] at hx
    exact (mem_nodes_of_mem (List.mem_of_find?_eq_some hfind)).2 x hx

theorem rdirect_target_mem_nodes (g : Graph) (a x : Nat) (hx : x ∈ rdirect g a) :
    x ∈ nodes g := by
  unfold rdirect at hx
  rcases List.mem_map.1 hx with ⟨e, he, hex⟩
  subst hex
  exact (mem_nodes_of_mem (List.mem_of_mem_filter he)).1

theorem mem_provenance_iff (g : Graph) (b x : Nat) :
    x ∈ provenance g b ↔ Relation.TransGen (edgeRel (direct g)) b x := by
  unfold provenance
  rw [mem_iterF_iff_reach (U := nodes g) (direct_target_mem_nodes g)
    (fun y hy => direct_target_mem_nodes g b y (List.mem_toFinset.1 hy))]
  constructor
  · rintro ⟨s, hs, hreach⟩
    exact Relation.TransGen.head'_iff.2 ⟨s, List.mem_toFinset.1 hs, hreach⟩
  · intro h
    rcases Relation.TransGen.head'_iff.1 h with ⟨s, hs, hreach⟩
    exact ⟨s, List.mem_toFinset.2 hs, hreach⟩

theorem mem_subvenance_iff (g : Graph) (b x : Nat) :
    x ∈ subvenance g b ↔ Relation.TransGen (edgeRel (rdirect g)) b x := by
  unfold subvenance
  rw [mem_iterF_iff_reach (U := nodes g) (rdirect_target_mem_nodes g)
    (fun y hy => rdirect_target_mem_nodes g b y (List.mem_toFinset.1 hy))]
  constructor
  · rintro ⟨s, hs, hreach⟩
    exact Relation.TransGen.head'_iff.2 ⟨s, List.mem_toFinset.1 hs, hreach⟩
  · intro h
    rcases Relation.TransGen.head'_iff.1 h with ⟨s, hs, hreach⟩
    exact ⟨s, List.mem_toFinset.2 hs, hreach⟩

-- union equation, any graph

theorem provenance_union_eq (g : Graph) (b x : Nat) :
    x ∈ provenance g b ↔
      x ∈ direct g b ∨ ∃ p ∈ direct g b, x ∈ provenance g p := by
  rw [mem_provenance_iff]
  constructor
  · intro h
    rcases Relation.TransGen.head'_iff.1 h with ⟨p, hp, hreach⟩
    rcases (Relation.ReflTransGen.cases_head hreach) with heq | ⟨c, hc, hcr⟩
    · subst heq; exact Or.inl hp
    · exact Or.inr ⟨p, hp, (mem_provenance_iff g p x).2
        (Relation.TransGen.head'_iff.2 ⟨c, hc, hcr⟩)⟩
  · rintro (h | ⟨p, hp, hx⟩)
    · exact Relation.TransGen.single h
    · exact Relation.TransGen.head hp ((mem_provenance_iff g p x).1 hx)

-- transpose, for graphs with nodup keys

def keysNodup (g : Graph) : Prop := (g.map (·.1)).Nodup

theorem mem_rdirect_iff {g : Graph} (hnd : keysNodup g) (a c : Nat) :
    c ∈ rdirect g a ↔ a ∈ direct g c := by
  unfold rdirect direct
  constructor
  · intro hc
    rcases List.mem_map.1 hc with ⟨e, he, hec⟩
    have hein := List.mem_of_mem_filter he
    have hpred := List.of_mem_filter he
    -- find? must return exactly this entry, by key uniqueness
    cases hfind : g.find? (fun f => f.1 == c) with
    | none =>
      exfalso
      have := List.find?_eq_none.1 hfind e hein
      simp [hec] at this
    | some f =>
      have hfin := List.mem_of_find?_eq_some hfind
      have hfkey : f.1 = c := by
        have := List.find?_some hfind
        simpa using this
      have : e = f := by
        have h1 : e.1 = c := hec
        exact List.inj_on_of_nodup_map hnd hein hfin (by rw [h1, hfkey])
      subst this
      simpa using hpred
  · intro ha
    cases hfind : g.find? (fun f => f.1 == c) with
    | none => rw [hfind] at ha; cases ha
    | some f =>
      rw [hfind] at ha
      simp only [Option.map_some', Option.getD_some] at ha
      have hfin := List.mem_of_find?_eq_some hfind
      have hfkey : f.1 = c := by
        have := List.find?_some hfind
        simpa using this
      refine List.mem_map.2 ⟨f, ?_, hfkey⟩
      refine List.mem_filter.2 ⟨hfin, ?_⟩
      show f.2.contains a = true
      simpa using ha

theorem subvenance_transpose {g : Graph} (hnd : keysNodup g) (b s : Nat) :
    s ∈ subvenance g b ↔ b ∈ provenance g s := by
  rw [mem_subvenance_iff, mem_provenance_iff]
  have hrel : ∀ a c, edgeRel (rdirect g) a c ↔ Function.swap (edgeRel (direct g)) a c := by
    intro a c
    exact mem_rdirect_iff hnd a c
  constructor
  · intro h
    have h2 : Relation.TransGen (Function.swap (edgeRel (direct g))) b s :=
      Relation.TransGen.mono (fun a c hac => (hrel a c).1 hac) h
    exact Relation.transGen_swap.1 h2
  · intro h
    have h2 : Relation.TransGen (Function.swap (edgeRel (direct g))) b s :=
      Relation.transGen_swap.2 h
    exact Relation.TransGen.mono (fun a c hac => (hrel a c).2 hac) h2

theorem keysNodup_setDirectProvenance (g : Graph) (b : Nat) (ps : List Nat)
    (h : keysNodup g) : keysNodup (setDirectProvenance g b ps) := by
  unfold setDirectProvenance
  by_cases hcyc : b ∈ provenance ((b, ps) :: g.filter (fun e => e.1 != b)) b
  · simpa [hcyc] using h
  · simp only [hcyc, if_false]
    unfold keysNodup
    simp only [List.map_cons, List.nodup_cons]
    constructor
    · intro hmem
      rcases List.mem_map.1 hmem with ⟨e, he, hek⟩
      have := List.of_mem_filter he
      simp [hek] at this
    · exact h.sublist ((List.filter_sublist g).map _)

theorem keysNodup_applyOps (ops : List (Nat × List Nat)) : keysNodup (applyOps ops) := by
  unfold applyOps
  have : ∀ g, keysNodup g →
      keysNodup (ops.foldl (fun g e => setDirectProvenance g e.1 e.2) g) := by
    induction ops with
    | nil => exact fun g h => h
    | cons e ops ih =>
      intro g h
      exact ih _ (keysNodup_setDirectProvenance g e.1 e.2 h)
  exact this [] (by simp [keysNodup])

/-- The mutation sequence of the TestPFS/Provenance DAG with branches
A=0, B=1, C=2, D=3, E=4: B depends on A, C on B and E, D on C. -/
def provTestOps : List (Nat × List Nat) := [(1, [0]), (2, [1, 4]), (3, [2])]

/-- C2: after every sequence of branch-provenance mutations the cached
provenance of every branch equals the union of its direct provenance with the
provenance of each direct-provenance branch (the transitive closure unfolding
equation), subvenance is the exact transpose of provenance, and on the
TestPFS/Provenance DAG (A to B, B and E to C, C to D) the provenance sets of
B, C, D have sizes 1, 3 and 4. -/
theorem c2_provenance_closure_and_transpose :
    (∀ (ops : List (Nat × List Nat)) (b x : Nat),
        x ∈ provenance (applyOps ops) b ↔
          x ∈ direct (applyOps ops) b
            ∨ ∃ p ∈ direct (applyOps ops) b, x ∈ provenance (applyOps ops) p)
      ∧ (∀ (ops : List (Nat × List Nat)) (b s : Nat),
          s ∈ subvenance (applyOps ops) b ↔ b ∈ provenance (applyOps ops) s)
      ∧ (provenance (applyOps provTestOps) 1).card = 1
      ∧ (provenance (applyOps provTestOps) 2).card = 3
      ∧ (provenance (applyOps provTestOps) 3).card = 4 := by
  refine ⟨fun ops b x => provenance_union_eq (applyOps ops) b x,
    fun ops b s => subvenance_transpose (keysNodup_applyOps ops) b s,
    by decide, by decide, by decide⟩

end BranchProv

namespace Engine

/-! Spec-model of the commit, propagation and squash engine (spec sections 3,
4.2, 4.3 and 4.4).  The engine is not in the snapshot; branches carry a head
and a direct-provenance list, commits are keyed by branch and job id, and
propagation repeatedly visits every branch, opening a commit with the
triggering job id on any branch whose provenance heads are not yet covered by
its head commit, exactly as the spec prescribes.  The scenario states below
replay the cited tests of server_test.go. -/

abbrev BranchId := Nat
abbrev CommitId := Nat
abbrev CommitKey := BranchId × CommitId

structure MCommit where
  branch : BranchId
  id : CommitId
  parent : Option CommitKey
  dprov : List CommitKey
  finished : Bool
  size : Nat
deriving DecidableEq, Repr

structure MBranch where
  name : BranchId
  head : Option CommitId
  dprov : List BranchId
deriving DecidableEq, Repr

structure MState where
  branches : List MBranch
  commits : List MCommit
deriving DecidableEq, Repr

inductive EngineErr where
  | notFound
  | failedPrecondition
deriving DecidableEq, Repr

def key (c : MCommit) : CommitKey := (c.branch, c.id)

def emptyState : MState := ⟨[], []⟩

def findCommit (st : MState) (k : CommitKey) : Option MCommit :=
  st.commits.find? (fun c => key c == k)

def findBranch (st : MState) (b : BranchId) : Option MBranch :=
  st.branches.find? (fun br => br.name == b)

def branchHead (st : MState) (b : BranchId) : Option CommitId :=
  (findBranch st b).bind (·.head)

def headCommit (st : MState) (b : BranchId) : Option MCommit :=
  (branchHead st b).bind (fun h => findCommit st (b, h))

def provHeads (st : MState) (ps : List BranchId) : List CommitKey :=
  ps.filterMap (fun p => (branchHead st p).map (fun h => (p, h)))

def setBranchHead (st : MState) (b : BranchId) (h : Option CommitId) : MState :=
  { st with branches :=
      st.branches.map (fun br => if br.name == b then { br with head := h } else br) }

def setCommitDprov (st : MState) (k : CommitKey) (d : List CommitKey) : MState :=
  { st with commits :=
      st.commits.map (fun c => if key c == k then { c with dprov := d } else c) }

def openCommit (st : MState) (b : MBranch) (j : CommitId) (heads : List CommitKey) :
    MState :=
  let newc : MCommit := ⟨b.name, j, b.head.map (fun h => (b.name, h)), heads, false, 0⟩
  setBranchHead { st with commits := st.commits ++ [newc] } b.name (some j)

def propagateVisit (j : CommitId) (st : MState) (bname : BranchId) : MState :=
  match findBranch st bname with
  | none => st
  | some b =>
    if b.dprov.isEmpty then st
    else
      let heads := provHeads st b.dprov
      if heads.isEmpty then st
      else
        match headCommit st bname with
        | some c =>
          if c.id == j then setCommitDprov st (key c) heads
          else if heads.all (fun ph => c.dprov.contains ph) then st
          else openCommit st b j heads
        | none => openCommit st b j heads

def propagatePass (j : CommitId) (st : MState) : MState :=
  (st.branches.map (·.name)).foldl (propagateVisit j) st

def propagateN (j : CommitId) : Nat → MState → MState
  | 0, st => st
  | n + 1, st => propagateN j n (propagatePass j st)

def propagate (j : CommitId) (st : MState) : MState :=
  propagateN j st.branches.length st

def createRepo (st : MState) (b : BranchId) : MState :=
  if (findBranch st b).isSome then st
  else { st with branches := st.branches ++ [⟨b, none, []⟩] }

def createBranch (st : MState) (b : BranchId) (ps : List BranchId) : MState :=
  let st1 :=
    if (findBranch st b).isSome then
      { st with branches :=
          st.branches.map (fun br => if br.name == b then { br with dprov := ps } else br) }
    else { st with branches := st.branches ++ [⟨b, none, ps⟩] }
  match provHeads st1 ps with
  | [] => st1
  | (_, h) :: _ => propagate h st1

def startCommit (st : MState) (b : BranchId) (j : CommitId) :
    Except EngineErr MState :=
  match findBranch st b with
  | none => .error .notFound
  | some br =>
    match headCommit st b with
    | some c =>
      if !c.finished then .error .failedPrecondition
      else .ok (propagate j (openCommit st br j (provHeads st br.dprov)))
    | none => .ok (propagate j (openCommit st br j (provHeads st br.dprov)))

def finishCommit (st : MState) (k : CommitKey) : Except EngineErr MState :=
  match findCommit st k with
  | none => .error .notFound
  | some c =>
    if c.finished then .error .failedPrecondition
    else
      .ok (propagate k.2
        { st with commits :=
            st.commits.map (fun d => if key d == k then { d with finished := true } else d) })

def putFileSize (st : MState) (b : BranchId) (n : Nat) : MState :=
  match headCommit st b with
  | none => st
  | some c =>
    if c.finished then st
    else
      { st with commits :=
          st.commits.map (fun d => if key d == key c then { d with size := d.size + n } else d) }

def readyAux (st : MState) : Nat → List CommitKey → Bool
  | _, [] => true
  | 0, _ => false
  | fuel + 1, ks =>
    ks.all (fun k =>
      match findCommit st k with
      | none => false
      | some c => c.finished && readyAux st fuel c.dprov)

def ready (st : MState) (k : CommitKey) : Bool :=
  match findCommit st k with
  | none => false
  | some c => readyAux st st.commits.length c.dprov

def readyOneLevel (st : MState) (k : CommitKey) : Bool :=
  match findCommit st k with
  | none => false
  | some c =>
    c.dprov.all (fun pk =>
      match findCommit st pk with
      | none => false
      | some p => p.finished)

def inspectCommitReady (st : MState) (b : BranchId) : Option CommitId :=
  match branchHead st b with
  | none => none
  | some h => if ready st (b, h) then some h else none

def countCommits (st : MState) (b : BranchId) : Nat :=
  (st.commits.filter (fun c => c.branch == b)).length

def repoSize (st : MState) (b : BranchId) : Nat :=
  (((headCommit st b).map (·.size))).getD 0

def runOk (r : Except EngineErr MState) : MState :=
  match r with
  | .ok st => st
  | .error _ => emptyState

def walkSurvivor (sq : List CommitKey) (st : MState) : Nat → Option CommitKey → Option CommitKey
  | _, none => none
  | 0, some k => if sq.contains k then none else some k
  | fuel + 1, some k =>
    if sq.contains k then
      match findCommit st k with
      | none => none
      | some c => walkSurvivor sq st fuel c.parent
    else some k

theorem walkSurvivor_none (sq : List CommitKey) (st : MState) (fuel : Nat) :
    walkSurvivor sq st fuel none = none := by
  cases fuel <;> rfl

def squashedKeys (st : MState) (j : CommitId) : List CommitKey :=
  (st.commits.filter (fun c => c.id == j)).map key

def squashJob (st : MState) (j : CommitId) : MState :=
  let sq := squashedKeys st j
  let fuel := st.commits.length
  let survivors := st.commits.filter (fun c => c.id != j)
  let commits2 := survivors.map (fun c => { c with parent := walkSurvivor sq st fuel c.parent })
  let branches2 := st.branches.map (fun br =>
    match br.head with
    | some h =>
      if sq.contains (br.name, h) then
        { br with head := (walkSurvivor sq st fuel (some (br.name, h))).map Prod.snd }
      else br
    | none => br)
  ⟨branches2, commits2⟩

-- C1 scenario: chain A=0 -> B=1 -> C=2 -> D=3, commit 11 on A

def c1Base : MState :=
  createBranch (createBranch (createBranch
    (createRepo (createRepo (createRepo (createRepo emptyState 0) 1) 2) 3)
    1 [0]) 2 [1]) 3 [2]

def c1AfterStart : MState := runOk (startCommit c1Base 0 11)
def c1Final : MState := runOk (finishCommit c1AfterStart (0, 11))

/-- C1: on the linear provenance chain A=0, B=1, C=2, D=3, finishing one new
commit with job id 11 on the root branch A makes each downstream branch
receive exactly one new commit (they start with zero), every one of those
downstream commits carries the job id 11 of the commit on A, and inspecting
the head of any downstream branch, in particular D, returns that id. -/
theorem c1_linear_chain_propagation :
    (startCommit c1Base 0 11).isOk = true
      ∧ countCommits c1Base 1 = 0 ∧ countCommits c1Base 2 = 0 ∧ countCommits c1Base 3 = 0
      ∧ countCommits c1Final 1 = 1 ∧ countCommits c1Final 2 = 1 ∧ countCommits c1Final 3 = 1
      ∧ (c1Final.commits.filter (fun c => c.branch != 0)).all (fun c => c.id == 11) = true
      ∧ branchHead c1Final 1 = some 11
      ∧ branchHead c1Final 2 = some 11
      ∧ branchHead c1Final 3 = some 11 :=
  ⟨rfl, rfl, rfl, rfl, rfl, rfl, rfl, rfl, rfl, rfl, rfl⟩

-- C4 scenario: chain A=0 -> B=1 -> C=2, commit 21 on A
def c4Base : MState :=
  createBranch (createBranch
    (createRepo (createRepo (createRepo emptyState 0) 1) 2) 1 [0]) 2 [1]

def c4Started : MState := runOk (startCommit c4Base 0 21)

def c4FinB : MState := runOk (finishCommit c4Started (1, 21))

def c4FinA : MState := runOk (finishCommit c4FinB (0, 21))

def c4Late : MState := createBranch (createRepo c4FinA 3) 3 [0]

/-- C4: a commit becomes READY only once every commit in its transitive
provenance is finished.  On the chain A=0, B=1, C=2 with job 21 started on A:
no downstream commit is ready while the commit on A is open; after finishing
only the commit on B, the commit on C is still not ready even though its
one-level direct provenance is entirely finished (the transitive walk reaches
the still-open commit on A), so a blocking ready-inspect of C yields nothing;
after finishing the commit on A every downstream commit is ready and the
ready-inspect of C returns its head; and a branch D=3 created afterwards over
the finished head of A starts out ready. -/
theorem c4_ready_requires_transitive_finish :
    (startCommit c4Base 0 21).isOk = true
      ∧ (finishCommit c4Started (1, 21)).isOk = true
      ∧ (finishCommit c4FinB (0, 21)).isOk = true
      ∧ ready c4Started (1, 21) = false
      ∧ ready c4Started (2, 21) = false
      ∧ inspectCommitReady c4Started 2 = none
      ∧ ready c4FinB (2, 21) = false
      ∧ readyOneLevel c4FinB (2, 21) = true
      ∧ inspectCommitReady c4FinB 2 = none
      ∧ ready c4FinA (1, 21) = true
      ∧ ready c4FinA (2, 21) = true
      ∧ inspectCommitReady c4FinA 2 = some 21
      ∧ branchHead c4Late 3 = some 21
      ∧ ready c4Late (3, 21) = true :=
  ⟨rfl, rfl, rfl, rfl, rfl, rfl, rfl, rfl, rfl, rfl, rfl, rfl, rfl, rfl⟩

-- C6 scenario
def c6Base : MState := createRepo emptyState 0

def c6S1 : MState := runOk (startCommit c6Base 0 31)

def c6Fin : MState := runOk (finishCommit c6S1 (0, 31))

/-- C6: starting a commit on a branch whose head commit is still open fails
with a failed-precondition error and leaves exactly one commit on the branch
(no second open commit is created); once the head is finished, starting a
commit on the same branch succeeds and the branch then has two commits. -/
theorem c6_start_commit_unfinished_head_fails :
    (startCommit c6Base 0 31).isOk = true
      ∧ startCommit c6S1 0 32 = .error .failedPrecondition
      ∧ countCommits c6S1 0 = 1
      ∧ (finishCommit c6S1 (0, 31)).isOk = true
      ∧ (startCommit c6Fin 0 32).isOk = true
      ∧ countCommits (runOk (startCommit c6Fin 0 32)) 0 = 2 :=
  ⟨rfl, rfl, rfl, rfl, rfl, rfl⟩

-- C7 scenario: in=0, out=1
def c7Base : MState := createBranch (createRepo (createRepo emptyState 0) 1) 1 [0]

def c7A : MState := runOk (finishCommit (runOk (startCommit c7Base 0 41)) (0, 41))

def c7B : MState := runOk (finishCommit c7A (1, 41))

def c7Off : MState := createBranch c7B 1 []

def c7In2 : MState := runOk (finishCommit (runOk (startCommit c7Off 0 42)) (0, 42))

def c7On : MState := createBranch c7In2 1 [0]

/-- C7: with input branch 0 provenant to output branch 1, the first input
commit 41 produces an output commit with the identical id 41; after the
provenance edge is removed, a new input commit 42 produces no new output
commit and the output head keeps the old id 41; re-creating the same edge
replays the current input head and produces exactly one new output commit
whose id 42 is identical to the input head id. -/
theorem c7_toggle_provenance_replay :
    countCommits c7B 1 = 1
      ∧ branchHead c7B 1 = some 41
      ∧ branchHead c7B 0 = some 41
      ∧ countCommits c7In2 1 = 1
      ∧ branchHead c7In2 1 = some 41
      ∧ branchHead c7In2 0 = some 42
      ∧ countCommits c7On 1 = 2
      ∧ branchHead c7On 1 = some 42
      ∧ branchHead c7On 0 = some 42 :=
  ⟨rfl, rfl, rfl, rfl, rfl, rfl, rfl, rfl, rfl⟩

-- C8 scenarios
def c8S1 : MState :=
  runOk (startCommit (runOk (finishCommit (putFileSize
    (runOk (startCommit (createRepo emptyState 0) 0 51)) 0 100) (0, 51))) 0 52)

def c8Sq1 : MState := squashJob c8S1 52

def c8S2 : MState := putFileSize (runOk (startCommit (createRepo emptyState 0) 0 61)) 0 100

def c8Sq2 : MState := squashJob c8S2 61

/-- C8: squashing the job of a branch-head commit moves the head to the
parent of the removed commit, and the squashed commit is gone; squashing the
only commit of a branch leaves the branch in place with a null head, zero
commits, and the repo size back to zero from one hundred, and in neither case
is the branch deleted. -/
theorem c8_squash_branch_head_and_persistence :
    branchHead c8Sq1 0 = some 51
      ∧ c8Sq1.branches.length = 1
      ∧ countCommits c8Sq1 0 = 1
      ∧ findCommit c8Sq1 (0, 52) = none
      ∧ repoSize c8S2 0 = 100
      ∧ c8Sq2.branches.length = 1
      ∧ branchHead c8Sq2 0 = none
      ∧ countCommits c8Sq2 0 = 0
      ∧ repoSize c8Sq2 0 = 0 :=
  ⟨rfl, rfl, rfl, rfl, rfl, rfl, rfl, rfl, rfl⟩

-- C5 generic development

def parentWfAux : List MCommit → List CommitKey → Bool
  | [], _ => true
  | c :: rest, seen =>
    (match c.parent with
     | none => true
     | some pk => seen.contains pk)
    && parentWfAux rest (seen ++ [key c])

def parentWfB (st : MState) : Bool := parentWfAux st.commits []

def ancChain (st : MState) : Nat → Option CommitKey → List CommitKey
  | _, none => []
  | 0, some k => [k]
  | fuel + 1, some k =>
    k :: (match findCommit st k with
      | none => []
      | some c => ancChain st fuel c.parent)

theorem walkSurvivor_eq_find_ancChain (sq : List CommitKey) (st : MState) :
    ∀ (fuel : Nat) (ok : Option CommitKey),
      walkSurvivor sq st fuel ok
        = (ancChain st fuel ok).find? (fun k => !sq.contains k) := by
  intro fuel
  induction fuel with
  | zero =>
    intro ok
    match ok with
    | none => rfl
    | some k =>
      by_cases hmem : k ∈ sq
      · simp [walkSurvivor, ancChain, List.find?_cons, hmem]
      · simp [walkSurvivor, ancChain, List.find?_cons, hmem]
  | succ fuel ih =>
    intro ok
    match ok with
    | none => rfl
    | some k =>
      by_cases hmem : k ∈ sq
      · cases hf : findCommit st k with
        | none => simp [walkSurvivor, ancChain, List.find?_cons, hmem, hf]
        | some c => simp [walkSurvivor, ancChain, List.find?_cons, hmem, hf, ih c.parent]
      · simp [walkSurvivor, ancChain, List.find?_cons, hmem]

theorem parentWfAux_mem {l : List MCommit} {seen : List CommitKey}
    (h : parentWfAux l seen = true) :
    ∀ c ∈ l, ∀ pk, c.parent = some pk → pk ∈ seen ∨ pk ∈ l.map key := by
  induction l generalizing seen with
  | nil => intro c hc; cases hc
  | cons a l ih =>
    simp only [parentWfAux, Bool.and_eq_true] at h
    intro c hc pk hpk
    rcases List.mem_cons.1 hc with hc | hc
    · subst hc
      rw [hpk] at h
      have := h.1
      simp only [List.contains_iff_exists_mem_beq] at this
      rcases this with ⟨x, hx, hbeq⟩
      left
      have : pk = x := by simpa using hbeq
      rw [this]; exact hx
    · rcases ih h.2 c hc pk hpk with hmem | hmem
      · rcases List.mem_append.1 hmem with hmem | hmem
        · exact Or.inl hmem
        · right
          simp only [List.mem_singleton] at hmem
          simp [hmem]
      · right
        simp [hmem]

theorem parent_closed {st : MState} (hwf : parentWfB st = true) :
    ∀ c ∈ st.commits, ∀ pk, c.parent = some pk → pk ∈ st.commits.map key := by
  intro c hc pk hpk
  rcases parentWfAux_mem hwf c hc pk hpk with h | h
  · cases h
  · exact h

theorem findCommit_isSome_of_mem {st : MState} {k : CommitKey}
    (h : k ∈ st.commits.map key) : ∃ c, findCommit st k = some c ∧ c ∈ st.commits ∧ key c = k := by
  rcases List.mem_map.1 h with ⟨c, hc, hck⟩
  have hsome : (st.commits.find? (fun d => key d == k)).isSome := by
    rw [List.find?_isSome]
    exact ⟨c, hc, by simp [hck]⟩
  rcases Option.isSome_iff_exists.1 hsome with ⟨d, hd⟩
  refine ⟨d, hd, List.mem_of_find?_eq_some hd, ?_⟩
  have := List.find?_some hd
  simpa using this

theorem walk_surv_mem {sq : List CommitKey} {st : MState} (hwf : parentWfB st = true) :
    ∀ (fuel : Nat) (k k' : CommitKey), k ∈ st.commits.map key →
      walkSurvivor sq st fuel (some k) = some k' →
      k' ∈ st.commits.map key ∧ sq.contains k' = false := by
  intro fuel
  induction fuel with
  | zero =>
    intro k k' hk hw
    by_cases hc : sq.contains k = true
    · simp only [walkSurvivor, hc, if_true] at hw
      exact Option.noConfusion hw
    · simp only [walkSurvivor, Bool.eq_false_iff.2 hc, if_false] at hw
      cases hw
      exact ⟨hk, Bool.eq_false_iff.2 hc⟩
  | succ fuel ih =>
    intro k k' hk hw
    by_cases hc : sq.contains k = true
    · simp only [walkSurvivor, hc, if_true] at hw
      cases hf : findCommit st k with
      | none =>
        simp only [hf] at hw
        exact Option.noConfusion hw
      | some c =>
        simp only [hf] at hw
        cases hp : c.parent with
        | none =>
          simp only [hp, walkSurvivor_none] at hw
          exact Option.noConfusion hw
        | some pk =>
          simp only [hp] at hw
          have hcmem : c ∈ st.commits := List.mem_of_find?_eq_some hf
          have hpk : pk ∈ st.commits.map key := parent_closed hwf c hcmem pk hp
          exact ih pk k' hpk hw
    · simp only [walkSurvivor, Bool.eq_false_iff.2 hc, if_false] at hw
      cases hw
      exact ⟨hk, Bool.eq_false_iff.2 hc⟩

theorem key_not_squashed {st : MState} {j : CommitId} {k : CommitKey}
    (hk : k ∈ st.commits.map key) (hns : (squashedKeys st j).contains k = false) :
    ∃ d ∈ st.commits, key d = k ∧ (d.id == j) = false := by
  rcases List.mem_map.1 hk with ⟨d, hd, hdk⟩
  refine ⟨d, hd, hdk, ?_⟩
  cases hdj : (d.id == j) with
  | false => rfl
  | true =>
    exfalso
    have hmem : k ∈ squashedKeys st j :=
      List.mem_map.2 ⟨d, List.mem_filter.2 ⟨hd, hdj⟩, hdk⟩
    have hcon : (squashedKeys st j).contains k = true := by simpa using hmem
    rw [hns] at hcon
    cases hcon

def nearestSurvivor (st : MState) (j : CommitId) (ok : Option CommitKey) :
    Option CommitKey :=
  (ancChain st st.commits.length ok).find? (fun k => !(squashedKeys st j).contains k)

theorem c5_reparent_membership (st : MState) (j : CommitId) :
    ∀ c ∈ st.commits, (c.id == j) = false →
      { c with parent := walkSurvivor (squashedKeys st j) st st.commits.length c.parent }
        ∈ (squashJob st j).commits := by
  intro c hc hcj
  unfold squashJob
  simp only [List.mem_map]
  refine ⟨c, List.mem_filter.2 ⟨hc, ?_⟩, rfl⟩
  simp [bne, hcj]

theorem c5_no_dangling (st : MState) (j : CommitId) (hwf : parentWfB st = true) :
    ∀ c ∈ (squashJob st j).commits, ∀ pk, c.parent = some pk →
      ∃ d ∈ (squashJob st j).commits, key d = pk := by
  intro c hc pk hpk
  unfold squashJob at hc
  simp only [List.mem_map] at hc
  rcases hc with ⟨c0, hc0, hc0e⟩
  have hc0mem : c0 ∈ st.commits := List.mem_of_mem_filter hc0
  have hwalk : walkSurvivor (squashedKeys st j) st st.commits.length c0.parent = some pk := by
    rw [← hpk, ← hc0e]
  cases hp0 : c0.parent with
  | none =>
    rw [hp0, walkSurvivor_none] at hwalk
    exact Option.noConfusion hwalk
  | some k0 =>
    rw [hp0] at hwalk
    have hk0 : k0 ∈ st.commits.map key := parent_closed hwf c0 hc0mem k0 hp0
    rcases walk_surv_mem hwf _ k0 pk hk0 hwalk with ⟨hpkmem, hpknot⟩
    rcases key_not_squashed hpkmem hpknot with ⟨d, hd, hdk, hdj⟩
    refine ⟨{ d with parent := walkSurvivor (squashedKeys st j) st st.commits.length d.parent },
      c5_reparent_membership st j d hd hdj, ?_⟩
    simpa [key] using hdk

/-- C5: squashing a job re-parents every surviving child of a removed commit
to the nearest surviving ancestor.  Part one: the squashed graph has no
dangling parent reference.  Part two: each surviving commit whose parent was
some key pk reappears with its parent replaced by the first non-squashed key
on the ancestor chain of pk (so a child of a removed X gets the nearest
ancestor of X that survives, walking past other commits squashed in the same
call).  Part three: all children converging on one removed commit X are
re-parented to one and the same surviving ancestor. -/
theorem c5_squash_reparents_to_nearest_survivor (st : MState) (j : CommitId)
    (hwf : parentWfB st = true) :
    (∀ c ∈ (squashJob st j).commits, ∀ pk, c.parent = some pk →
        ∃ d ∈ (squashJob st j).commits, key d = pk)
      ∧ (∀ c ∈ st.commits, (c.id == j) = false → ∀ pk, c.parent = some pk →
          { c with parent := nearestSurvivor st j (some pk) } ∈ (squashJob st j).commits)
      ∧ (∀ c1 ∈ st.commits, ∀ c2 ∈ st.commits, ∀ X : MCommit,
          (c1.id == j) = false → (c2.id == j) = false →
          c1.parent = some (key X) → c2.parent = some (key X) →
          ∃ q, { c1 with parent := q } ∈ (squashJob st j).commits
            ∧ { c2 with parent := q } ∈ (squashJob st j).commits
            ∧ q = nearestSurvivor st j (some (key X))) := by
  refine ⟨c5_no_dangling st j hwf, ?_, ?_⟩
  · intro c hc hcj pk hpk
    have h := c5_reparent_membership st j c hc hcj
    rw [hpk, walkSurvivor_eq_find_ancChain] at h
    exact h
  · intro c1 hc1 c2 hc2 X hc1j hc2j hp1 hp2
    refine ⟨nearestSurvivor st j (some (key X)), ?_, ?_, rfl⟩
    · have h := c5_reparent_membership st j c1 hc1 hc1j
      rw [hp1, walkSurvivor_eq_find_ancChain] at h
      exact h
    · have h := c5_reparent_membership st j c2 hc2 hc2j
      rw [hp2, walkSurvivor_eq_find_ancChain] at h
      exact h

/-- The commit graph of TestPFS/SquashJobMultipleChildrenSingleCommit: a is
the root, b its child, and both c (on the same branch) and d (on a second
branch) are children of b; squashing the job of b must leave c and d as
siblings under a. -/
def c5ExSt : MState :=
  ⟨[⟨0, some 3, []⟩, ⟨1, some 4, []⟩],
   [⟨0, 1, none, [], true, 0⟩,
    ⟨0, 2, some (0, 1), [], true, 0⟩,
    ⟨0, 3, some (0, 2), [], true, 0⟩,
    ⟨1, 4, some (0, 2), [], true, 0⟩]⟩

theorem c5_squash_witness :
    parentWfB c5ExSt = true
      ∧ ({ branch := 0, id := 3, parent := some (0, 1), dprov := [], finished := true,
            size := 0 : MCommit } ∈ (squashJob c5ExSt 2).commits
          ∧ { branch := 1, id := 4, parent := some (0, 1), dprov := [], finished := true,
              size := 0 : MCommit } ∈ (squashJob c5ExSt 2).commits) := by
  refine ⟨rfl, ?_, ?_⟩
  · exact (c5_squash_reparents_to_nearest_survivor c5ExSt 2 rfl).2.1
      ⟨0, 3, some (0, 2), [], true, 0⟩ (by decide) rfl (0, 2) rfl
  · exact (c5_squash_reparents_to_nearest_survivor c5ExSt 2 rfl).2.1
      ⟨1, 4, some (0, 2), [], true, 0⟩ (by decide) rfl (0, 2) rfl

end Engine


namespace IndexPb

/-- Go bits.Len64: the number of bits required to represent n; zero for zero. -/
def bitLenAux : Nat → Nat → Nat
  | _, 0 => 0
  | 0, _ + 1 => 0
  | fuel + 1, m + 1 => bitLenAux fuel ((m + 1) / 2) + 1

def bitLen (n : Nat) : Nat := bitLenAux n n

theorem bitLenAux_congr : ∀ (f1 f2 n : Nat), n ≤ f1 → n ≤ f2 →
    bitLenAux f1 n = bitLenAux f2 n := by
  intro f1
  induction f1 with
  | zero =>
    intro f2 n h1 h2
    have hz : n = 0 := by omega
    subst hz
    cases f2 <;> rfl
  | succ f1 ih =>
    intro f2 n h1 h2
    cases n with
    | zero => cases f2 <;> rfl
    | succ m =>
      cases f2 with
      | zero => omega
      | succ g2 =>
        show bitLenAux f1 ((m + 1) / 2) + 1 = bitLenAux g2 ((m + 1) / 2) + 1
        congr 1
        exact ih g2 _ (by omega) (by omega)

/-- Embeds sovIndex from index.pb.go: (bits.Len64(x|1) + 6) / 7. -/
def sovIndex (x : Nat) : Nat := (bitLen (x ||| 1) + 6) / 7

/-- Embeds encodeVarintIndex from index.pb.go: the base-128 varint bytes of v,
least significant group first (the Go loop emits them in this order).  The Go
expressions b & 0x7F and b | 0x80 are v % 128 and v % 128 + 128 here. -/
def putUvarint (v : Nat) : List Nat :=
  if v < 128 then [v]
  else (v % 128 + 128) :: putUvarint (v / 128)
decreasing_by exact Nat.div_lt_self (by omega) (by omega)

inductive PErr where
  | intOverflow
  | eof
  | invalidLength
  | groupInNonGroup
  | illegalTag
  | wrongWireType
  | illegalWireType
  | endGroup
deriving DecidableEq, Repr

theorem ok_bind {ε α β : Type} (a : α) (f : α → Except ε β) :
    (Except.ok a).bind f = f a := rfl

theorem error_bind {ε α β : Type} (e : ε) (f : α → Except ε β) :
    (Except.error e : Except ε α).bind f = (.error e : Except ε β) := rfl

/-- Embeds the varint reading loops of Unmarshal: starting from an
accumulator and a bit shift, read base-128 groups until a byte below 0x80.
Go accumulates with wire |= uint64(b & 0x7F) << shift, and uint64
arithmetic wraps modulo 2 ^ 64; a shift of 64 or more is the
integer-overflow error and running out of bytes is an unexpected EOF. -/
def readVarintAux (data : List Nat) (shift acc : Nat) : Except PErr (Nat × List Nat) :=
  if 64 ≤ shift then .error .intOverflow
  else
    match data with
    | [] => .error .eof
    | b :: rest =>
      let acc2 := (acc ||| (b % 128) <<< shift) % 2 ^ 64
      if b < 128 then .ok (acc2, rest)
      else readVarintAux rest (shift + 7) acc2

/-- Disjoint bitwise or is addition: bits of a sit below position n, bits of
b * 2 ^ n sit at or above it. -/
theorem lor_mul_pow_eq_add {a n : Nat} (ha : a < 2 ^ n) (b : Nat) :
    a ||| b * 2 ^ n = a + b * 2 ^ n := by
  refine Nat.eq_of_testBit_eq fun i => ?_
  rw [Nat.testBit_lor]
  rcases Nat.lt_or_ge i n with hi | hi
  · have h2 : (a + b * 2 ^ n).testBit i = a.testBit i := by
      induction b with
      | zero => simp
      | succ b ihb =>
        have hstep : a + (b + 1) * 2 ^ n = 2 ^ n + (a + b * 2 ^ n) := by ring
        rw [hstep, Nat.testBit_two_pow_add_gt hi, ihb]
    have h1 : (b * 2 ^ n).testBit i = false := by
      rw [← Nat.shiftLeft_eq, Nat.testBit_shiftLeft]
      simp [Nat.not_le.2 hi]
    rw [h1, h2, Bool.or_false]
  · have h1 : a.testBit i = false :=
      Nat.testBit_lt_two_pow (lt_of_lt_of_le ha (Nat.pow_le_pow_right (by omega) hi))
    rw [h1, Bool.false_or]
    have hsplit : (a + b * 2 ^ n) / 2 ^ i = b / 2 ^ (i - n) := by
      have h2 : (2 : Nat) ^ i = 2 ^ n * 2 ^ (i - n) := by
        rw [← pow_add]
        congr 1
        omega
      rw [h2, ← Nat.div_div_eq_div_mul]
      congr 1
      rw [Nat.add_mul_div_right _ _ (Nat.two_pow_pos n), Nat.div_eq_of_lt ha]
      omega
    have hL : (b * 2 ^ n).testBit i = b.testBit (i - n) := by
      rw [← Nat.shiftLeft_eq, Nat.testBit_shiftLeft]
      simp [hi]
    rw [hL, Nat.testBit_to_div_mod, Nat.testBit_to_div_mod, hsplit]

theorem lor_one_even (b : Nat) : 2 * b ||| 1 = 2 * b + 1 := by
  have h := lor_mul_pow_eq_add (a := 1) (n := 1) (by omega) b
  simp only [pow_one] at h
  rw [Nat.lor_comm, Nat.mul_comm 2 b, h]
  omega

theorem lor_one_odd (b : Nat) : 2 * b + 1 ||| 1 = 2 * b + 1 := by
  have h := lor_mul_pow_eq_add (a := 1) (n := 1) (by omega) b
  simp only [pow_one] at h
  have hrepr : 2 * b + 1 = 1 ||| b * 2 := by rw [h]; omega
  conv_lhs => rw [hrepr]
  rw [Nat.lor_assoc]
  have h11 : (1 : Nat) ||| 1 = 1 := by decide
  rw [Nat.lor_comm (b * 2) 1, ← Nat.lor_assoc, h11, ← hrepr]

theorem lor_one_eq (v : Nat) : v ||| 1 = 2 * (v / 2) + 1 := by
  rcases Nat.even_or_odd v with ⟨b, hb⟩ | ⟨b, hb⟩
  · subst hb
    rw [show b + b = 2 * b by omega, lor_one_even]
    omega
  · subst hb
    rw [lor_one_odd]
    omega

theorem bitLen_eq_zero : bitLen 0 = 0 := rfl

theorem bitLen_of_pos {n : Nat} (h : n ≠ 0) : bitLen n = bitLen (n / 2) + 1 := by
  obtain ⟨m, rfl⟩ : ∃ m, n = m + 1 := ⟨n - 1, by omega⟩
  show bitLenAux m ((m + 1) / 2) + 1 = bitLenAux ((m + 1) / 2) ((m + 1) / 2) + 1
  congr 1
  exact bitLenAux_congr _ _ _ (by omega) (le_refl _)

theorem bitLen_le {n k : Nat} (h : n < 2 ^ k) : bitLen n ≤ k := by
  induction k generalizing n with
  | zero =>
    have : n = 0 := by simpa using h
    simp [this, bitLen_eq_zero]
  | succ k ihk =>
    by_cases hz : n = 0
    · simp [hz, bitLen_eq_zero]
    · rw [bitLen_of_pos hz]
      have h2 : (2 : Nat) ^ (k + 1) = 2 * 2 ^ k := by ring
      have : n / 2 < 2 ^ k := by omega
      exact Nat.succ_le_succ (ihk this)

theorem bitLen_lor_one {v : Nat} (h : v ≠ 0) : bitLen (v ||| 1) = bitLen v := by
  rw [lor_one_eq]
  have h1 : (2 * (v / 2) + 1) ≠ 0 := by omega
  rw [bitLen_of_pos h1, bitLen_of_pos h]
  congr 1
  congr 1
  omega

theorem bitLen_div_128 {v : Nat} (h : 128 ≤ v) : bitLen v = bitLen (v / 128) + 7 := by
  have h1 : v ≠ 0 := by omega
  have h2 : v / 2 ≠ 0 := by omega
  have h3 : v / 2 / 2 ≠ 0 := by omega
  have h4 : v / 2 / 2 / 2 ≠ 0 := by omega
  have h5 : v / 2 / 2 / 2 / 2 ≠ 0 := by omega
  have h6 : v / 2 / 2 / 2 / 2 / 2 ≠ 0 := by omega
  have h7 : v / 2 / 2 / 2 / 2 / 2 / 2 ≠ 0 := by omega
  rw [bitLen_of_pos h1, bitLen_of_pos h2, bitLen_of_pos h3, bitLen_of_pos h4,
    bitLen_of_pos h5, bitLen_of_pos h6, bitLen_of_pos h7]
  have hdiv : v / 2 / 2 / 2 / 2 / 2 / 2 / 2 = v / 128 := by omega
  rw [hdiv]

theorem bitLen_lor_one_le_seven {v : Nat} (h : v < 128) : bitLen (v ||| 1) ≤ 7 := by
  refine bitLen_le (n := v ||| 1) (k := 7) ?_
  exact Nat.or_lt_two_pow (n := 7) h (by omega)

theorem bitLen_lor_one_pos (v : Nat) : 1 ≤ bitLen (v ||| 1) := by
  rw [lor_one_eq]
  rw [bitLen_of_pos (by omega)]
  omega

theorem putUvarint_length (v : Nat) : (putUvarint v).length = sovIndex v := by
  induction v using Nat.strong_induction_on with
  | _ v ih =>
    by_cases h : v < 128
    · rw [putUvarint]
      simp only [h, if_true, List.length_cons, List.length_nil]
      unfold sovIndex
      have hb := bitLen_lor_one_le_seven h
      have hb1 := bitLen_lor_one_pos v
      omega
    · rw [putUvarint]
      simp only [h, if_false, List.length_cons]
      rw [ih (v / 128) (by omega)]
      unfold sovIndex
      rw [bitLen_lor_one (by omega : v ≠ 0), bitLen_div_128 (by omega : 128 ≤ v)]
      by_cases hz : v / 128 = 0
      · omega
      · rw [bitLen_lor_one hz]
        omega

theorem readVarintAux_putUvarint {v shift acc : Nat} (rest : List Nat)
    (hsh : shift ≤ 63) (hv : v < 2 ^ (64 - shift)) (hacc : acc < 2 ^ shift) :
    readVarintAux (putUvarint v ++ rest) shift acc = .ok (acc + v * 2 ^ shift, rest) := by
  induction v using Nat.strong_induction_on generalizing shift acc with
  | _ v ih =>
    have hexp : (2 : Nat) ^ (64 - shift) * 2 ^ shift = 2 ^ 64 := by
      rw [← pow_add]
      congr 1
      omega
    by_cases h : v < 128
    · rw [putUvarint]
      simp only [h, if_true, List.cons_append, List.nil_append]
      rw [readVarintAux]
      simp only [Nat.not_le.2 (by omega : shift < 64), if_false]
      have hmod : v % 128 = v := Nat.mod_eq_of_lt h
      have hg : v * 2 ^ shift ≤ (2 ^ (64 - shift) - 1) * 2 ^ shift :=
        Nat.mul_le_mul_right _ (by omega)
      have hg2 : (2 ^ (64 - shift) - 1) * 2 ^ shift = 2 ^ 64 - 2 ^ shift := by
        rw [Nat.sub_mul, hexp, one_mul]
      have hple : (2 : Nat) ^ shift ≤ 2 ^ 64 := Nat.pow_le_pow_right (by omega) (by omega)
      have hlt : acc + v * 2 ^ shift < 2 ^ 64 := by omega
      simp only [hmod, Nat.shiftLeft_eq, lor_mul_pow_eq_add hacc,
        Nat.mod_eq_of_lt hlt, h, if_true]
    · rw [putUvarint]
      simp only [h, if_false, List.cons_append]
      rw [readVarintAux]
      simp only [Nat.not_le.2 (by omega : shift < 64), if_false]
      have hb : ¬ (v % 128 + 128 < 128) := by omega
      have hbmod : (v % 128 + 128) % 128 = v % 128 := by omega
      have hshlt : shift < 57 := by
        by_contra hc
        have h57 : 57 ≤ shift := by omega
        have : (2 : Nat) ^ (64 - shift) ≤ 2 ^ 7 := Nat.pow_le_pow_right (by omega) (by omega)
        omega
      have hpow7 : (2 : Nat) ^ (shift + 7) = 128 * 2 ^ shift := by
        rw [pow_add]
        ring
      have hg : v % 128 * 2 ^ shift ≤ 127 * 2 ^ shift :=
        Nat.mul_le_mul_right _ (by omega)
      have hacc2lt : acc + v % 128 * 2 ^ shift < 2 ^ (shift + 7) := by omega
      have hple : (2 : Nat) ^ (shift + 7) ≤ 2 ^ 64 := Nat.pow_le_pow_right (by omega) (by omega)
      have hacc2small : acc + v % 128 * 2 ^ shift < 2 ^ 64 := by omega
      simp only [hbmod, Nat.shiftLeft_eq, lor_mul_pow_eq_add hacc,
        Nat.mod_eq_of_lt hacc2small, hb, if_false]
      have hdivlt : v / 128 < 2 ^ (64 - (shift + 7)) := by
        rw [Nat.div_lt_iff_lt_mul (by omega : 0 < 128)]
        have h1 : (2 : Nat) ^ (64 - (shift + 7)) * 128 = 2 ^ (64 - shift) := by
          have h128 : (128 : Nat) = 2 ^ 7 := by norm_num
          rw [h128, ← pow_add]
          congr 1
          omega
        omega
      rw [ih (v / 128) (Nat.div_lt_self (by omega) (by omega)) (by omega) hdivlt hacc2lt]
      have hsum : acc + v % 128 * 2 ^ shift + v / 128 * 2 ^ (shift + 7)
          = acc + v * 2 ^ shift := by
        have hx : v / 128 * 2 ^ (shift + 7) = v / 128 * 128 * 2 ^ shift := by
          rw [hpow7]
          ring
        have hy : v % 128 * 2 ^ shift + v / 128 * 128 * 2 ^ shift
            = (v % 128 + v / 128 * 128) * 2 ^ shift := by ring
        have hvdm : v % 128 + v / 128 * 128 = v := by omega
        rw [hx, Nat.add_assoc, hy, hvdm]
      rw [hsum]

theorem readVarintAux_ok_length {data : List Nat} {shift acc v : Nat} {rest : List Nat}
    (h : readVarintAux data shift acc = .ok (v, rest)) : rest.length < data.length := by
  induction data generalizing shift acc with
  | nil =>
    rw [readVarintAux] at h
    by_cases hs : 64 ≤ shift <;> simp [hs] at h
  | cons b tail ih =>
    rw [readVarintAux] at h
    by_cases hs : 64 ≤ shift
    · simp [hs] at h
    · simp only [hs, if_false] at h
      by_cases hb : b < 128
      · simp only [hb, if_true, Except.ok.injEq, Prod.mk.injEq] at h
        rw [← h.2]
        simp
      · simp only [hb, if_false] at h
        have := ih h
        simp only [List.length_cons]
        omega

theorem readUvarint_put {v : Nat} (rest : List Nat) (hv : v < 2 ^ 64) :
    readVarintAux (putUvarint v ++ rest) 0 0 = .ok (v, rest) := by
  have h := @readVarintAux_putUvarint v 0 0 rest
    (by omega) (by simpa using hv) (by omega)
  simpa using h

/-- Go uint64(i) for an int64 value: two-complement reinterpretation. -/
def toUint64 (i : Int) : Nat := (i % (2 ^ 64 : Int)).toNat

/-- Go int64(n) for a uint64 value: two-complement reinterpretation. -/
def toInt64 (n : Nat) : Int :=
  if n % 2 ^ 64 < 2 ^ 63 then ((n % 2 ^ 64 : Nat) : Int)
  else ((n % 2 ^ 64 : Nat) : Int) - 2 ^ 64

/-- Go int32(n) for a uint64 value, as used for fieldNum := int32(wire >> 3). -/
def toInt32 (n : Nat) : Int :=
  if n % 2 ^ 32 < 2 ^ 31 then ((n % 2 ^ 32 : Nat) : Int)
  else ((n % 2 ^ 32 : Nat) : Int) - 2 ^ 32

theorem toInt64_toUint64 {o : Int} (h1 : -(2 ^ 63) ≤ o) (h2 : o < 2 ^ 63) :
    toInt64 (toUint64 o) = o := by
  unfold toUint64 toInt64
  have hmod : 0 ≤ o % (2 ^ 64 : Int) := Int.emod_nonneg o (by norm_num)
  have hmodlt : o % (2 ^ 64 : Int) < 2 ^ 64 := Int.emod_lt_of_pos o (by norm_num)
  rcases le_or_lt 0 o with hpos | hneg
  · have he : o % (2 ^ 64 : Int) = o := Int.emod_eq_of_lt hpos (by omega)
    have ht : ((o % (2 ^ 64 : Int)).toNat : Int) = o := by omega
    have hsmall : (o % (2 ^ 64 : Int)).toNat % 2 ^ 64 = (o % (2 ^ 64 : Int)).toNat := by
      apply Nat.mod_eq_of_lt
      omega
    rw [hsmall]
    have hlt : (o % (2 ^ 64 : Int)).toNat < 2 ^ 63 := by omega
    simp only [hlt, if_true]
    omega
  · have he : o % (2 ^ 64 : Int) = o + 2 ^ 64 := by omega
    have hsmall : (o % (2 ^ 64 : Int)).toNat % 2 ^ 64 = (o % (2 ^ 64 : Int)).toNat := by
      apply Nat.mod_eq_of_lt
      omega
    rw [hsmall]
    have hge : ¬ ((o % (2 ^ 64 : Int)).toNat < 2 ^ 63) := by omega
    simp only [hge, if_false]
    omega

theorem toUint64_lt (i : Int) : toUint64 i < 2 ^ 64 := by
  unfold toUint64
  have hmod : 0 ≤ i % (2 ^ 64 : Int) := Int.emod_nonneg i (by norm_num)
  have hmodlt : i % (2 ^ 64 : Int) < 2 ^ 64 := Int.emod_lt_of_pos i (by norm_num)
  omega

theorem toUint64_eq_zero_iff {o : Int} (h1 : -(2 ^ 63) ≤ o) (h2 : o < 2 ^ 63) :
    toUint64 o = 0 ↔ o = 0 := by
  unfold toUint64
  have hmod : 0 ≤ o % (2 ^ 64 : Int) := Int.emod_nonneg o (by norm_num)
  constructor
  · intro h
    rcases le_or_lt 0 o with hpos | hneg
    · have : o % (2 ^ 64 : Int) = o := Int.emod_eq_of_lt hpos (by omega)
      omega
    · have : o % (2 ^ 64 : Int) = o + 2 ^ 64 := by omega
      omega
  · intro h
    subst h
    simp

/-- Modelled from the spec: chunk.DataRef is a serialization collaborator
from another package (its generated code is not in the snapshot); it is
represented by the byte content of its wire encoding, with Size equal to its
length, Marshal producing it and Unmarshal merging incoming bytes into the
message. -/
structure DataRef where
  bytes : List Nat
deriving DecidableEq, Repr

/-- The Range message of index.pb.go: Offset, LastPath, ChunkRef and the
unrecognized-field buffer XXX_unrecognized (here u).  Strings are byte
lists. -/
structure Range where
  offset : Int
  lastPath : List Nat
  chunkRef : Option DataRef
  u : List Nat
deriving DecidableEq, Repr

/-- The File message of index.pb.go: Tag, DataRefs, XXX_unrecognized. -/
structure File where
  tag : List Nat
  dataRefs : List DataRef
  u : List Nat
deriving DecidableEq, Repr

/-- The Index message of index.pb.go: Path, Range, File, XXX_unrecognized. -/
structure Index where
  path : List Nat
  range : Option Range
  file : Option File
  u : List Nat
deriving DecidableEq, Repr

def rangeDefault : Range := ⟨0, [], none, []⟩

def fileDefault : File := ⟨[], [], []⟩

def indexDefault : Index := ⟨[], none, none, []⟩

/-- Modelled from the spec: the collaborator contract for chunk.DataRef. -/
def dataRefSize (d : DataRef) : Nat := d.bytes.length

/-- Modelled from the spec: the collaborator contract for chunk.DataRef. -/
def dataRefMarshal (d : DataRef) : List Nat := d.bytes

/-- Modelled from the spec: the collaborator contract for chunk.DataRef;
unmarshalling into an existing message merges by appending content. -/
def dataRefUnmarshalInto (prev : DataRef) (data : List Nat) : DataRef :=
  ⟨prev.bytes ++ data⟩

/-- Embeds Range.Size from index.pb.go lines 433-454. -/
def rangeSize (m : Range) : Nat :=
  (if m.offset ≠ 0 then 1 + sovIndex (toUint64 m.offset) else 0)
    + (if m.lastPath.length > 0 then 1 + m.lastPath.length + sovIndex m.lastPath.length else 0)
    + (match m.chunkRef with
       | none => 0
       | some d => 1 + dataRefSize d + sovIndex (dataRefSize d))
    + m.u.length

/-- Embeds File.Size from index.pb.go lines 456-476. -/
def fileSize (m : File) : Nat :=
  (if m.tag.length > 0 then 1 + m.tag.length + sovIndex m.tag.length else 0)
    + (m.dataRefs.map (fun d => 1 + dataRefSize d + sovIndex (dataRefSize d))).sum
    + m.u.length

/-- Embeds Index.Size from index.pb.go lines 409-431. -/
def indexSize (m : Index) : Nat :=
  (if m.path.length > 0 then 1 + m.path.length + sovIndex m.path.length else 0)
    + (match m.range with
       | none => 0
       | some r => 1 + rangeSize r + sovIndex (rangeSize r))
    + (match m.file with
       | none => 0
       | some f => 1 + fileSize f + sovIndex (fileSize f))
    + m.u.length

/-- Embeds Range.Marshal / Range.MarshalToSizedBuffer (index.pb.go lines
299-348) as the byte sequence it produces: the sized buffer is written back
to front, so the wire order is the Offset field (tag 0x8), the LastPath
field (tag 0x12), the ChunkRef field (tag 0x1a), then the unrecognized
bytes. -/
def rangeMarshal (m : Range) : List Nat :=
  (if m.offset ≠ 0 then 8 :: putUvarint (toUint64 m.offset) else [])
    ++ (if m.lastPath.length > 0
        then 18 :: (putUvarint m.lastPath.length ++ m.lastPath) else [])
    ++ (match m.chunkRef with
        | none => []
        | some d =>
          26 :: (putUvarint (dataRefMarshal d).length ++ dataRefMarshal d))
    ++ m.u

/-- Embeds File.Marshal / File.MarshalToSizedBuffer (index.pb.go lines
350-396): the Tag field (tag 0xa), then each DataRef (tag 0x12) in list
order (the buffer is written back to front from the last element), then the
unrecognized bytes. -/
def fileMarshal (m : File) : List Nat :=
  (if m.tag.length > 0 then 10 :: (putUvarint m.tag.length ++ m.tag) else [])
    ++ (m.dataRefs.map (fun d =>
          18 :: (putUvarint (dataRefMarshal d).length ++ dataRefMarshal d))).flatten
    ++ m.u

/-- Embeds Index.Marshal / Index.MarshalToSizedBuffer (index.pb.go lines
241-297): the Path field (tag 0xa), the Range field (tag 0x12), the File
field (tag 0x1a), then the unrecognized bytes. -/
def indexMarshal (m : Index) : List Nat :=
  (if m.path.length > 0 then 10 :: (putUvarint m.path.length ++ m.path) else [])
    ++ (match m.range with
        | none => []
        | some r => 18 :: (putUvarint (rangeMarshal r).length ++ rangeMarshal r))
    ++ (match m.file with
        | none => []
        | some f => 26 :: (putUvarint (fileMarshal f).length ++ fileMarshal f))
    ++ m.u

theorem rangeMarshal_length (m : Range) : (rangeMarshal m).length = rangeSize m := by
  unfold rangeMarshal rangeSize
  simp only [List.length_append]
  congr 1
  congr 1
  congr 1
  · by_cases h : m.offset ≠ 0 <;> simp [h, putUvarint_length] <;> omega
  · by_cases h : m.lastPath.length > 0 <;> simp [h, putUvarint_length] <;> omega
  · cases m.chunkRef with
    | none => rfl
    | some d =>
      simp [putUvarint_length, dataRefMarshal, dataRefSize, sovIndex]
      omega

theorem fileMarshal_length (m : File) : (fileMarshal m).length = fileSize m := by
  unfold fileMarshal fileSize
  simp only [List.length_append]
  congr 1
  congr 1
  · by_cases h : m.tag.length > 0 <;> simp [h, putUvarint_length] <;> omega
  · rw [List.length_flatten]
    simp only [List.map_map]
    congr 1
    refine List.map_congr_left fun d _ => ?_
    simp [putUvarint_length, dataRefMarshal, dataRefSize]
    omega

theorem indexMarshal_length (m : Index) : (indexMarshal m).length = indexSize m := by
  unfold indexMarshal indexSize
  simp only [List.length_append]
  congr 1
  congr 1
  congr 1
  · by_cases h : m.path.length > 0 <;> simp [h, putUvarint_length] <;> omega
  · cases m.range with
    | none => rfl
    | some r =>
      simp [putUvarint_length, rangeMarshal_length]
      omega
  · cases m.file with
    | none => rfl
    | some f =>
      simp [putUvarint_length, fileMarshal_length]
      omega

/-- Embeds the inner varint-skipping loop of skipIndex (wire type 0): the
bytes are consumed without accumulating a value; the result is the number of
bytes consumed. -/
def skipVarintBytes (data : List Nat) (shift : Nat) : Except PErr Nat :=
  if 64 ≤ shift then .error .intOverflow
  else
    match data with
    | [] => .error .eof
    | b :: rest =>
      if b < 128 then .ok 1
      else (skipVarintBytes rest (shift + 7)).map (· + 1)

/-- Embeds skipIndex from index.pb.go lines 894-971.  The Go loop advances an
index over the buffer; here the remaining suffix and the consumed count are
tracked, and the loop is driven by a fuel that starts at one more than the
buffer length, which cannot run out because every iteration consumes at
least the wire-tag byte.  Jumps past the end of the buffer (wire types 1, 2
and 5) leave the count larger than the buffer, which the caller detects,
exactly as in Go. -/
def skipIndexLoop : Nat → List Nat → Nat → Nat → Except PErr Nat
  | 0, _, _, _ => .error .eof
  | _ + 1, [], _, _ => .error .eof
  | fuel + 1, b :: tail, depth, consumed =>
    (readVarintAux (b :: tail) 0 0).bind fun wr =>
      let c1 := consumed + ((b :: tail).length - wr.2.length)
      let wireType := wr.1 % 8
      if wireType == 0 then
        (skipVarintBytes wr.2 0).bind fun k =>
          if depth == 0 then .ok (c1 + k)
          else skipIndexLoop fuel (wr.2.drop k) depth (c1 + k)
      else if wireType == 1 then
        if depth == 0 then .ok (c1 + 8)
        else skipIndexLoop fuel (wr.2.drop 8) depth (c1 + 8)
      else if wireType == 2 then
        (readVarintAux wr.2 0 0).bind fun lr =>
          if 2 ^ 63 ≤ lr.1 then .error .invalidLength
          else
            let c2 := c1 + (wr.2.length - lr.2.length) + lr.1
            if depth == 0 then .ok c2
            else skipIndexLoop fuel (lr.2.drop lr.1) depth c2
      else if wireType == 3 then
        skipIndexLoop fuel wr.2 (depth + 1) c1
      else if wireType == 4 then
        if depth == 0 then .error .endGroup
        else if depth == 1 then .ok c1
        else skipIndexLoop fuel wr.2 (depth - 1) c1
      else if wireType == 5 then
        if depth == 0 then .ok (c1 + 4)
        else skipIndexLoop fuel (wr.2.drop 4) depth (c1 + 4)
      else .error .illegalWireType

def skipIndex (data : List Nat) : Except PErr Nat :=
  skipIndexLoop (data.length + 1) data 0 0

theorem skipIndexLoop_ok_le {fuel : Nat} :
    ∀ {data : List Nat} {depth consumed n : Nat},
      skipIndexLoop fuel data depth consumed = .ok n → consumed + 1 ≤ n := by
  induction fuel with
  | zero => intro data depth consumed n h; rw [skipIndexLoop] at h; cases h
  | succ fuel ih =>
    intro data depth consumed n h
    cases data with
    | nil => rw [skipIndexLoop] at h; cases h
    | cons b tail =>
      rw [skipIndexLoop] at h
      cases hr : readVarintAux (b :: tail) 0 0 with
      | error e =>
        rw [hr, error_bind] at h
        exact Except.noConfusion h
      | ok wr =>
        obtain ⟨wire, rest1⟩ := wr
        have hlen : rest1.length < (b :: tail).length := readVarintAux_ok_length hr
        simp only [hr, ok_bind] at h
        simp only [List.length_cons] at hlen
        by_cases h0 : (wire % 8 == 0) = true
        · rw [if_pos h0] at h
          cases hs : skipVarintBytes rest1 0 with
          | error e =>
            rw [hs, error_bind] at h
            exact Except.noConfusion h
          | ok k =>
            simp only [hs, ok_bind] at h
            by_cases hd : (depth == 0) = true
            · rw [if_pos hd] at h
              cases h
              simp only [List.length_cons]
              omega
            · rw [if_neg hd] at h
              have := ih h
              simp only [List.length_cons] at this
              omega
        · rw [if_neg h0] at h
          by_cases h1 : (wire % 8 == 1) = true
          · rw [if_pos h1] at h
            by_cases hd : (depth == 0) = true
            · rw [if_pos hd] at h
              cases h
              simp only [List.length_cons]
              omega
            · rw [if_neg hd] at h
              have := ih h
              simp only [List.length_cons] at this
              omega
          · rw [if_neg h1] at h
            by_cases h2 : (wire % 8 == 2) = true
            · rw [if_pos h2] at h
              cases hr2 : readVarintAux rest1 0 0 with
              | error e =>
                rw [hr2, error_bind] at h
                exact Except.noConfusion h
              | ok lr =>
                obtain ⟨len, rest2⟩ := lr
                simp only [hr2, ok_bind] at h
                by_cases hbig : 2 ^ 63 ≤ len
                · rw [if_pos hbig] at h
                  exact Except.noConfusion h
                · rw [if_neg hbig] at h
                  by_cases hd : (depth == 0) = true
                  · rw [if_pos hd] at h
                    cases h
                    simp only [List.length_cons]
                    omega
                  · rw [if_neg hd] at h
                    have := ih h
                    simp only [List.length_cons] at this
                    omega
            · rw [if_neg h2] at h
              by_cases h3 : (wire % 8 == 3) = true
              · rw [if_pos h3] at h
                have := ih h
                simp only [List.length_cons] at this
                omega
              · rw [if_neg h3] at h
                by_cases h4 : (wire % 8 == 4) = true
                · rw [if_pos h4] at h
                  by_cases hd : (depth == 0) = true
                  · rw [if_pos hd] at h
                    exact Except.noConfusion h
                  · rw [if_neg hd] at h
                    by_cases hd1 : (depth == 1) = true
                    · rw [if_pos hd1] at h
                      cases h
                      simp only [List.length_cons]
                      omega
                    · rw [if_neg hd1] at h
                      have := ih h
                      simp only [List.length_cons] at this
                      omega
                · rw [if_neg h4] at h
                  by_cases h5 : (wire % 8 == 5) = true
                  · rw [if_pos h5] at h
                    by_cases hd : (depth == 0) = true
                    · rw [if_pos hd] at h
                      cases h
                      simp only [List.length_cons]
                      omega
                    · rw [if_neg hd] at h
                      have := ih h
                      simp only [List.length_cons] at this
                      omega
                  · rw [if_neg h5] at h
                    exact Except.noConfusion h

theorem skipIndex_pos {data : List Nat} {n : Nat} (h : skipIndex data = .ok n) :
    1 ≤ n := by
  have := skipIndexLoop_ok_le h
  omega

/-- Embeds Range.Unmarshal from index.pb.go lines 639-776 as a loop over the
remaining buffer.  Go advances an index over a fixed buffer; here the
remaining suffix is consumed, driven by a fuel that starts at one more than
the buffer length and cannot run out because every iteration consumes at
least the wire-tag byte.  Per iteration: read the wire varint, reject wire
type 4 (end group) and non-positive field numbers (computed with the int32
cast of wire >> 3), then dispatch: field 1 (Offset, wire type 0) reads a
varint and stores its int64 reinterpretation (Go accumulates with
m.Offset |= int64(b&0x7F) << shift, which equals reinterpreting the uint64
varint value); field 2 (LastPath, wire type 2) reads a length (rejecting
values with the int64 sign bit set, Go intStringLen < 0) and takes that many
bytes; field 3 (ChunkRef, wire type 2) passes the sub-buffer to the
collaborator, merging into the existing message when present; any other
field is skipped with skipIndex and its bytes land in XXX_unrecognized. -/
def rangeUnmarshalLoop : Nat → Range → List Nat → Except PErr Range
  | _, m, [] => .ok m
  | 0, _, _ :: _ => .error .eof
  | fuel + 1, m, b :: tail =>
    (readVarintAux (b :: tail) 0 0).bind fun wr =>
      let fieldNum : Int := toInt32 (wr.1 >>> 3)
      let wireType : Nat := wr.1 % 8
      if wireType == 4 then .error .groupInNonGroup
      else if fieldNum ≤ 0 then .error .illegalTag
      else if fieldNum == 1 then
        if wireType != 0 then .error .wrongWireType
        else
          (readVarintAux wr.2 0 0).bind fun vr =>
            rangeUnmarshalLoop fuel { m with offset := toInt64 vr.1 } vr.2
      else if fieldNum == 2 then
        if wireType != 2 then .error .wrongWireType
        else
          (readVarintAux wr.2 0 0).bind fun lr =>
            if 2 ^ 63 ≤ lr.1 then .error .invalidLength
            else if lr.2.length < lr.1 then .error .eof
            else rangeUnmarshalLoop fuel { m with lastPath := lr.2.take lr.1 } (lr.2.drop lr.1)
      else if fieldNum == 3 then
        if wireType != 2 then .error .wrongWireType
        else
          (readVarintAux wr.2 0 0).bind fun lr =>
            if 2 ^ 63 ≤ lr.1 then .error .invalidLength
            else if lr.2.length < lr.1 then .error .eof
            else
              let d := dataRefUnmarshalInto (m.chunkRef.getD ⟨[]⟩) (lr.2.take lr.1)
              rangeUnmarshalLoop fuel { m with chunkRef := some d } (lr.2.drop lr.1)
      else
        (skipIndex (b :: tail)).bind fun skippy =>
          if (b :: tail).length < skippy then .error .eof
          else
            rangeUnmarshalLoop fuel { m with u := m.u ++ (b :: tail).take skippy }
              ((b :: tail).drop skippy)

/-- The Range.Unmarshal method on an existing message. -/
def rangeUnmarshalFrom (m : Range) (data : List Nat) : Except PErr Range :=
  rangeUnmarshalLoop (data.length + 1) m data

/-- Range.Unmarshal as invoked on a fresh message. -/
def rangeUnmarshal (data : List Nat) : Except PErr Range :=
  rangeUnmarshalFrom rangeDefault data

/-- Embeds File.Unmarshal from index.pb.go lines 777-893, in the same style
as the Range loop: field 1 (Tag, wire type 2) takes a length-prefixed byte
string; field 2 (DataRefs, wire type 2) appends a fresh collaborator message
unmarshalled from the sub-buffer; anything else goes through skipIndex into
XXX_unrecognized. -/
def fileUnmarshalLoop : Nat → File → List Nat → Except PErr File
  | _, m, [] => .ok m
  | 0, _, _ :: _ => .error .eof
  | fuel + 1, m, b :: tail =>
    (readVarintAux (b :: tail) 0 0).bind fun wr =>
      let fieldNum : Int := toInt32 (wr.1 >>> 3)
      let wireType : Nat := wr.1 % 8
      if wireType == 4 then .error .groupInNonGroup
      else if fieldNum ≤ 0 then .error .illegalTag
      else if fieldNum == 1 then
        if wireType != 2 then .error .wrongWireType
        else
          (readVarintAux wr.2 0 0).bind fun lr =>
            if 2 ^ 63 ≤ lr.1 then .error .invalidLength
            else if lr.2.length < lr.1 then .error .eof
            else fileUnmarshalLoop fuel { m with tag := lr.2.take lr.1 } (lr.2.drop lr.1)
      else if fieldNum == 2 then
        if wireType != 2 then .error .wrongWireType
        else
          (readVarintAux wr.2 0 0).bind fun lr =>
            if 2 ^ 63 ≤ lr.1 then .error .invalidLength
            else if lr.2.length < lr.1 then .error .eof
            else
              let d := dataRefUnmarshalInto ⟨[]⟩ (lr.2.take lr.1)
              fileUnmarshalLoop fuel { m with dataRefs := m.dataRefs ++ [d] } (lr.2.drop lr.1)
      else
        (skipIndex (b :: tail)).bind fun skippy =>
          if (b :: tail).length < skippy then .error .eof
          else
            fileUnmarshalLoop fuel { m with u := m.u ++ (b :: tail).take skippy }
              ((b :: tail).drop skippy)

/-- The File.Unmarshal method on an existing message. -/
def fileUnmarshalFrom (m : File) (data : List Nat) : Except PErr File :=
  fileUnmarshalLoop (data.length + 1) m data

/-- File.Unmarshal as invoked on a fresh message. -/
def fileUnmarshal (data : List Nat) : Except PErr File :=
  fileUnmarshalFrom fileDefault data

/-- Embeds Index.Unmarshal from index.pb.go lines 484-638, in the same style:
field 1 (Path, wire type 2) takes a length-prefixed byte string; field 2
(Range, wire type 2) unmarshals the sub-buffer into the existing Range
message, allocating a fresh one when nil; field 3 (File, wire type 2) does
the same for the File message; anything else goes through skipIndex into
XXX_unrecognized. -/
def indexUnmarshalLoop : Nat → Index → List Nat → Except PErr Index
  | _, m, [] => .ok m
  | 0, _, _ :: _ => .error .eof
  | fuel + 1, m, b :: tail =>
    (readVarintAux (b :: tail) 0 0).bind fun wr =>
      let fieldNum : Int := toInt32 (wr.1 >>> 3)
      let wireType : Nat := wr.1 % 8
      if wireType == 4 then .error .groupInNonGroup
      else if fieldNum ≤ 0 then .error .illegalTag
      else if fieldNum == 1 then
        if wireType != 2 then .error .wrongWireType
        else
          (readVarintAux wr.2 0 0).bind fun lr =>
            if 2 ^ 63 ≤ lr.1 then .error .invalidLength
            else if lr.2.length < lr.1 then .error .eof
            else indexUnmarshalLoop fuel { m with path := lr.2.take lr.1 } (lr.2.drop lr.1)
      else if fieldNum == 2 then
        if wireType != 2 then .error .wrongWireType
        else
          (readVarintAux wr.2 0 0).bind fun lr =>
            if 2 ^ 63 ≤ lr.1 then .error .invalidLength
            else if lr.2.length < lr.1 then .error .eof
            else
              (rangeUnmarshalFrom (m.range.getD rangeDefault) (lr.2.take lr.1)).bind fun r =>
                indexUnmarshalLoop fuel { m with range := some r } (lr.2.drop lr.1)
      else if fieldNum == 3 then
        if wireType != 2 then .error .wrongWireType
        else
          (readVarintAux wr.2 0 0).bind fun lr =>
            if 2 ^ 63 ≤ lr.1 then .error .invalidLength
            else if lr.2.length < lr.1 then .error .eof
            else
              (fileUnmarshalFrom (m.file.getD fileDefault) (lr.2.take lr.1)).bind fun f =>
                indexUnmarshalLoop fuel { m with file := some f } (lr.2.drop lr.1)
      else
        (skipIndex (b :: tail)).bind fun skippy =>
          if (b :: tail).length < skippy then .error .eof
          else
            indexUnmarshalLoop fuel { m with u := m.u ++ (b :: tail).take skippy }
              ((b :: tail).drop skippy)

/-- The Index.Unmarshal method on an existing message. -/
def indexUnmarshalFrom (m : Index) (data : List Nat) : Except PErr Index :=
  indexUnmarshalLoop (data.length + 1) m data

/-- Index.Unmarshal as invoked on a fresh message. -/
def indexUnmarshal (data : List Nat) : Except PErr Index :=
  indexUnmarshalFrom indexDefault data

theorem read_tag {t : Nat} (h : t < 128) (rest : List Nat) :
    readVarintAux (t :: rest) 0 0 = .ok (t, rest) := by
  have h2 := readUvarint_put (v := t) rest (by omega)
  rw [putUvarint, if_pos h] at h2
  simpa using h2

theorem range_loop_nil (f : Nat) (m : Range) : rangeUnmarshalLoop f m [] = .ok m := by
  cases f <;> rfl

theorem range_step_offset (fuel : Nat) (m : Range) (o : Int) (rest : List Nat)
    (h1 : -(2 ^ 63) ≤ o) (h2 : o < 2 ^ 63) :
    rangeUnmarshalLoop (fuel + 1) m (8 :: (putUvarint (toUint64 o) ++ rest))
      = rangeUnmarshalLoop fuel { m with offset := o } rest := by
  have htag : readVarintAux (8 :: (putUvarint (toUint64 o) ++ rest)) 0 0
      = .ok (8, putUvarint (toUint64 o) ++ rest) := read_tag (by omega) _
  have hval : readVarintAux (putUvarint (toUint64 o) ++ rest) 0 0 = .ok (toUint64 o, rest) :=
    readUvarint_put rest (toUint64_lt o)
  rw [rangeUnmarshalLoop, htag, ok_bind]
  norm_num [toInt32, Nat.shiftRight_eq_div_pow]
  rw [hval, ok_bind]
  simp only []
  rw [toInt64_toUint64 h1 h2]

theorem putUvarint_length_pos (v : Nat) : 1 ≤ (putUvarint v).length := by
  rw [putUvarint_length]
  unfold sovIndex
  have := bitLen_lor_one_pos v
  omega

theorem range_step_lastPath (fuel : Nat) (m : Range) (p rest : List Nat)
    (hlen : p.length < 2 ^ 63) :
    rangeUnmarshalLoop (fuel + 1) m (18 :: (putUvarint p.length ++ (p ++ rest)))
      = rangeUnmarshalLoop fuel { m with lastPath := p } rest := by
  have htag : readVarintAux (18 :: (putUvarint p.length ++ (p ++ rest))) 0 0
      = .ok (18, putUvarint p.length ++ (p ++ rest)) := read_tag (by omega) _
  have hval : readVarintAux (putUvarint p.length ++ (p ++ rest)) 0 0
      = .ok (p.length, p ++ rest) := readUvarint_put (p ++ rest) (by omega)
  rw [rangeUnmarshalLoop, htag, ok_bind]
  norm_num [toInt32, Nat.shiftRight_eq_div_pow]
  rw [hval, ok_bind]
  simp only []
  rw [if_neg (by omega), if_neg (by simp)]
  rw [List.take_left' rfl, List.drop_left' rfl]

theorem range_step_chunkRef (fuel : Nat) (m : Range) (d : DataRef) (rest : List Nat)
    (hlen : d.bytes.length < 2 ^ 63) (hnone : m.chunkRef = none) :
    rangeUnmarshalLoop (fuel + 1) m
        (26 :: (putUvarint (dataRefMarshal d).length ++ (dataRefMarshal d ++ rest)))
      = rangeUnmarshalLoop fuel { m with chunkRef := some d } rest := by
  have htag : readVarintAux
        (26 :: (putUvarint (dataRefMarshal d).length ++ (dataRefMarshal d ++ rest))) 0 0
      = .ok (26, putUvarint (dataRefMarshal d).length ++ (dataRefMarshal d ++ rest)) :=
    read_tag (by omega) _
  have hval : readVarintAux (putUvarint (dataRefMarshal d).length ++ (dataRefMarshal d ++ rest)) 0 0
      = .ok ((dataRefMarshal d).length, dataRefMarshal d ++ rest) :=
    readUvarint_put (dataRefMarshal d ++ rest) (by simp only [dataRefMarshal]; omega)
  rw [rangeUnmarshalLoop, htag, ok_bind]
  norm_num [toInt32, Nat.shiftRight_eq_div_pow]
  rw [hval, ok_bind]
  simp only []
  rw [if_neg (by simpa [dataRefMarshal] using hlen), if_neg (by simp)]
  rw [List.take_left' rfl, List.drop_left' rfl]
  simp [dataRefUnmarshalInto, dataRefMarshal, hnone]

/-- Well-formedness of a Range value as a Go value with no unrecognized
bytes: the Offset fits in int64, field byte lengths fit in a Go int, and
XXX_unrecognized is empty. -/
def rangeWf (r : Range) : Prop :=
  -(2 ^ 63) ≤ r.offset ∧ r.offset < 2 ^ 63 ∧ r.lastPath.length < 2 ^ 63
    ∧ ((r.chunkRef.map (fun d => d.bytes.length)).getD 0) < 2 ^ 63
    ∧ r.u = []

instance (r : Range) : Decidable (rangeWf r) := by
  unfold rangeWf
  exact inferInstance

theorem readVarintAux_ok_length_le {data : List Nat} {shift acc v : Nat} {rest : List Nat}
    (h : readVarintAux data shift acc = .ok (v, rest)) : rest.length + 1 ≤ data.length :=
  readVarintAux_ok_length h

theorem range_loop_congr : ∀ (f1 : Nat) {data : List Nat} (f2 : Nat) (m : Range),
    data.length < f1 → data.length < f2 →
    rangeUnmarshalLoop f1 m data = rangeUnmarshalLoop f2 m data := by
  intro f1
  induction f1 with
  | zero => intro data f2 m h1 h2; omega
  | succ f1 ih =>
    intro data f2 m h1 h2
    cases data with
    | nil => rw [range_loop_nil, range_loop_nil]
    | cons b tail =>
      cases f2 with
      | zero => omega
      | succ g2 =>
        rw [rangeUnmarshalLoop, rangeUnmarshalLoop]
        cases hr : readVarintAux (b :: tail) 0 0 with
        | error e => rw [error_bind, error_bind]
        | ok wr =>
          obtain ⟨wire, rest1⟩ := wr
          have hl1 := readVarintAux_ok_length hr
          simp only [hr, ok_bind]
          simp only [List.length_cons] at h1 h2 hl1
          by_cases hw4 : (wire % 8 == 4) = true
          · rw [if_pos hw4, if_pos hw4]
          · rw [if_neg hw4, if_neg hw4]
            by_cases hf0 : toInt32 (wire >>> 3) ≤ 0
            · rw [if_pos hf0, if_pos hf0]
            · rw [if_neg hf0, if_neg hf0]
              by_cases hf1 : (toInt32 (wire >>> 3) == 1) = true
              · rw [if_pos hf1, if_pos hf1]
                by_cases hw0 : (wire % 8 != 0) = true
                · rw [if_pos hw0, if_pos hw0]
                · rw [if_neg hw0, if_neg hw0]
                  cases hv : readVarintAux rest1 0 0 with
                  | error e => rw [error_bind, error_bind]
                  | ok vr =>
                    obtain ⟨v, rest2⟩ := vr
                    have hl2 := readVarintAux_ok_length hv
                    simp only [hv, ok_bind]
                    exact ih g2 _ (by omega) (by omega)
              · rw [if_neg hf1, if_neg hf1]
                by_cases hf2 : (toInt32 (wire >>> 3) == 2) = true
                · rw [if_pos hf2, if_pos hf2]
                  by_cases hw2 : (wire % 8 != 2) = true
                  · rw [if_pos hw2, if_pos hw2]
                  · rw [if_neg hw2, if_neg hw2]
                    cases hv : readVarintAux rest1 0 0 with
                    | error e => rw [error_bind, error_bind]
                    | ok lr =>
                      obtain ⟨len, rest2⟩ := lr
                      have hl2 := readVarintAux_ok_length hv
                      simp only [hv, ok_bind]
                      by_cases hbig : 2 ^ 63 ≤ len
                      · rw [if_pos hbig, if_pos hbig]
                      · rw [if_neg hbig, if_neg hbig]
                        by_cases heof : rest2.length < len
                        · rw [if_pos heof, if_pos heof]
                        · rw [if_neg heof, if_neg heof]
                          have hd : (rest2.drop len).length ≤ rest2.length := by
                            rw [List.length_drop]
                            omega
                          exact ih g2 _ (by omega) (by omega)
                · rw [if_neg hf2, if_neg hf2]
                  by_cases hf3 : (toInt32 (wire >>> 3) == 3) = true
                  · rw [if_pos hf3, if_pos hf3]
                    by_cases hw2 : (wire % 8 != 2) = true
                    · rw [if_pos hw2, if_pos hw2]
                    · rw [if_neg hw2, if_neg hw2]
                      cases hv : readVarintAux rest1 0 0 with
                      | error e => rw [error_bind, error_bind]
                      | ok lr =>
                        obtain ⟨len, rest2⟩ := lr
                        have hl2 := readVarintAux_ok_length hv
                        simp only [hv, ok_bind]
                        by_cases hbig : 2 ^ 63 ≤ len
                        · rw [if_pos hbig, if_pos hbig]
                        · rw [if_neg hbig, if_neg hbig]
                          by_cases heof : rest2.length < len
                          · rw [if_pos heof, if_pos heof]
                          · rw [if_neg heof, if_neg heof]
                            have hd : (rest2.drop len).length ≤ rest2.length := by
                              rw [List.length_drop]
                              omega
                            exact ih g2 _ (by omega) (by omega)
                  · rw [if_neg hf3, if_neg hf3]
                    cases hs : skipIndex (b :: tail) with
                    | error e => rw [error_bind, error_bind]
                    | ok skippy =>
                      have hsp := skipIndex_pos hs
                      simp only [hs, ok_bind]
                      by_cases heof : (b :: tail).length < skippy
                      · rw [if_pos heof, if_pos heof]
                      · rw [if_neg heof, if_neg heof]
                        have hd : ((b :: tail).drop skippy).length ≤ tail.length := by
                          rw [List.length_drop]
                          simp only [List.length_cons]
                          omega
                        exact ih g2 _ (by omega) (by omega)

theorem rangeFrom_nil (m : Range) : rangeUnmarshalFrom m [] = .ok m := rfl

theorem rangeFrom_step_offset (m : Range) (o : Int) (rest : List Nat)
    (h1 : -(2 ^ 63) ≤ o) (h2 : o < 2 ^ 63) :
    rangeUnmarshalFrom m (8 :: (putUvarint (toUint64 o) ++ rest))
      = rangeUnmarshalFrom { m with offset := o } rest := by
  unfold rangeUnmarshalFrom
  rw [range_step_offset _ _ _ _ h1 h2]
  refine range_loop_congr _ _ _ ?_ (by omega)
  simp only [List.length_cons, List.length_append]
  omega

theorem rangeFrom_step_lastPath (m : Range) (p rest : List Nat)
    (hlen : p.length < 2 ^ 63) :
    rangeUnmarshalFrom m (18 :: (putUvarint p.length ++ (p ++ rest)))
      = rangeUnmarshalFrom { m with lastPath := p } rest := by
  unfold rangeUnmarshalFrom
  rw [range_step_lastPath _ _ _ _ hlen]
  refine range_loop_congr _ _ _ ?_ (by omega)
  simp only [List.length_cons, List.length_append]
  omega

theorem rangeFrom_step_chunkRef (m : Range) (d : DataRef) (rest : List Nat)
    (hlen : d.bytes.length < 2 ^ 63) (hnone : m.chunkRef = none) :
    rangeUnmarshalFrom m
        (26 :: (putUvarint (dataRefMarshal d).length ++ (dataRefMarshal d ++ rest)))
      = rangeUnmarshalFrom { m with chunkRef := some d } rest := by
  unfold rangeUnmarshalFrom
  rw [range_step_chunkRef _ _ _ _ hlen hnone]
  refine range_loop_congr _ _ _ ?_ (by omega)
  simp only [List.length_cons, List.length_append]
  omega

theorem rangeFrom_step_offset_last (m : Range) (o : Int)
    (h1 : -(2 ^ 63) ≤ o) (h2 : o < 2 ^ 63) :
    rangeUnmarshalFrom m (8 :: putUvarint (toUint64 o)) = .ok { m with offset := o } := by
  have h := rangeFrom_step_offset m o [] h1 h2
  rw [List.append_nil] at h
  rw [h, rangeFrom_nil]

theorem rangeFrom_step_lastPath_last (m : Range) (p : List Nat)
    (hlen : p.length < 2 ^ 63) :
    rangeUnmarshalFrom m (18 :: (putUvarint p.length ++ p)) = .ok { m with lastPath := p } := by
  have h := rangeFrom_step_lastPath m p [] hlen
  rw [List.append_nil] at h
  rw [h, rangeFrom_nil]

theorem rangeFrom_step_chunkRef_last (m : Range) (d : DataRef)
    (hlen : d.bytes.length < 2 ^ 63) (hnone : m.chunkRef = none) :
    rangeUnmarshalFrom m (26 :: (putUvarint (dataRefMarshal d).length ++ dataRefMarshal d))
      = .ok { m with chunkRef := some d } := by
  have h := rangeFrom_step_chunkRef m d [] hlen hnone
  rw [List.append_nil] at h
  rw [h, rangeFrom_nil]

theorem rangeUnmarshal_marshal {r : Range} (hwf : rangeWf r) :
    rangeUnmarshal (rangeMarshal r) = .ok r := by
  obtain ⟨h1, h2, h3, h4, h5⟩ := hwf
  obtain ⟨o, p, cr, u⟩ := r
  simp only at h1 h2 h3 h4 h5
  subst h5
  unfold rangeUnmarshal rangeMarshal
  by_cases ho : o ≠ 0
  · rw [if_pos ho]
    by_cases hp : p.length > 0
    · rw [if_pos hp]
      cases cr with
      | none =>
        simp only [List.append_nil, List.cons_append, List.append_assoc]
        rw [rangeFrom_step_offset _ _ _ h1 h2, rangeFrom_step_lastPath_last _ _ h3]
        rfl
      | some d =>
        simp only [Option.map_some', Option.getD_some] at h4
        simp only [List.append_nil, List.cons_append, List.append_assoc]
        rw [rangeFrom_step_offset _ _ _ h1 h2, rangeFrom_step_lastPath _ _ _ h3,
          rangeFrom_step_chunkRef_last _ _ h4 rfl]
        rfl
    · rw [if_neg hp]
      have hpz : p = [] := List.eq_nil_of_length_eq_zero (by omega)
      subst hpz
      cases cr with
      | none =>
        simp only [List.append_nil, List.nil_append]
        rw [rangeFrom_step_offset_last _ _ h1 h2]
        rfl
      | some d =>
        simp only [Option.map_some', Option.getD_some] at h4
        simp only [List.append_nil, List.nil_append, List.cons_append, List.append_assoc]
        rw [rangeFrom_step_offset _ _ _ h1 h2, rangeFrom_step_chunkRef_last _ _ h4 rfl]
        rfl
  · rw [if_neg ho]
    have hoz : o = 0 := by omega
    subst hoz
    by_cases hp : p.length > 0
    · rw [if_pos hp]
      cases cr with
      | none =>
        simp only [List.append_nil, List.nil_append]
        rw [rangeFrom_step_lastPath_last _ _ h3]
        rfl
      | some d =>
        simp only [Option.map_some', Option.getD_some] at h4
        simp only [List.append_nil, List.nil_append, List.cons_append, List.append_assoc]
        rw [rangeFrom_step_lastPath _ _ _ h3, rangeFrom_step_chunkRef_last _ _ h4 rfl]
        rfl
    · rw [if_neg hp]
      have hpz : p = [] := List.eq_nil_of_length_eq_zero (by omega)
      subst hpz
      cases cr with
      | none =>
        simp only [List.append_nil, List.nil_append]
        rw [rangeFrom_nil]
        rfl
      | some d =>
        simp only [Option.map_some', Option.getD_some] at h4
        simp only [List.append_nil, List.nil_append]
        rw [rangeFrom_step_chunkRef_last _ _ h4 rfl]
        rfl

theorem file_loop_nil (f : Nat) (m : File) : fileUnmarshalLoop f m [] = .ok m := by
  cases f <;> rfl

theorem file_step_tag (fuel : Nat) (m : File) (t rest : List Nat)
    (hlen : t.length < 2 ^ 63) :
    fileUnmarshalLoop (fuel + 1) m (10 :: (putUvarint t.length ++ (t ++ rest)))
      = fileUnmarshalLoop fuel { m with tag := t } rest := by
  have htag : readVarintAux (10 :: (putUvarint t.length ++ (t ++ rest))) 0 0
      = .ok (10, putUvarint t.length ++ (t ++ rest)) := read_tag (by omega) _
  have hval : readVarintAux (putUvarint t.length ++ (t ++ rest)) 0 0
      = .ok (t.length, t ++ rest) := readUvarint_put (t ++ rest) (by omega)
  rw [fileUnmarshalLoop, htag, ok_bind]
  norm_num [toInt32, Nat.shiftRight_eq_div_pow]
  rw [hval, ok_bind]
  simp only []
  rw [if_neg (by omega), if_neg (by simp)]
  rw [List.take_left' rfl, List.drop_left' rfl]

theorem file_step_dataRef (fuel : Nat) (m : File) (d : DataRef) (rest : List Nat)
    (hlen : d.bytes.length < 2 ^ 63) :
    fileUnmarshalLoop (fuel + 1) m
        (18 :: (putUvarint (dataRefMarshal d).length ++ (dataRefMarshal d ++ rest)))
      = fileUnmarshalLoop fuel { m with dataRefs := m.dataRefs ++ [d] } rest := by
  have htag : readVarintAux
        (18 :: (putUvarint (dataRefMarshal d).length ++ (dataRefMarshal d ++ rest))) 0 0
      = .ok (18, putUvarint (dataRefMarshal d).length ++ (dataRefMarshal d ++ rest)) :=
    read_tag (by omega) _
  have hval : readVarintAux (putUvarint (dataRefMarshal d).length ++ (dataRefMarshal d ++ rest)) 0 0
      = .ok ((dataRefMarshal d).length, dataRefMarshal d ++ rest) :=
    readUvarint_put (dataRefMarshal d ++ rest) (by simp only [dataRefMarshal]; omega)
  rw [fileUnmarshalLoop, htag, ok_bind]
  norm_num [toInt32, Nat.shiftRight_eq_div_pow]
  rw [hval, ok_bind]
  simp only []
  rw [if_neg (by simpa [dataRefMarshal] using hlen), if_neg (by simp)]
  rw [List.take_left' rfl, List.drop_left' rfl]
  simp [dataRefUnmarshalInto, dataRefMarshal]

theorem file_loop_congr : ∀ (f1 : Nat) {data : List Nat} (f2 : Nat) (m : File),
    data.length < f1 → data.length < f2 →
    fileUnmarshalLoop f1 m data = fileUnmarshalLoop f2 m data := by
  intro f1
  induction f1 with
  | zero => intro data f2 m h1 h2; omega
  | succ f1 ih =>
    intro data f2 m h1 h2
    cases data with
    | nil => rw [file_loop_nil, file_loop_nil]
    | cons b tail =>
      cases f2 with
      | zero => omega
      | succ g2 =>
        rw [fileUnmarshalLoop, fileUnmarshalLoop]
        cases hr : readVarintAux (b :: tail) 0 0 with
        | error e => rw [error_bind, error_bind]
        | ok wr =>
          obtain ⟨wire, rest1⟩ := wr
          have hl1 := readVarintAux_ok_length hr
          simp only [hr, ok_bind]
          simp only [List.length_cons] at h1 h2 hl1
          by_cases hw4 : (wire % 8 == 4) = true
          · rw [if_pos hw4, if_pos hw4]
          · rw [if_neg hw4, if_neg hw4]
            by_cases hf0 : toInt32 (wire >>> 3) ≤ 0
            · rw [if_pos hf0, if_pos hf0]
            · rw [if_neg hf0, if_neg hf0]
              by_cases hf1 : (toInt32 (wire >>> 3) == 1) = true
              · rw [if_pos hf1, if_pos hf1]
                by_cases hw2 : (wire % 8 != 2) = true
                · rw [if_pos hw2, if_pos hw2]
                · rw [if_neg hw2, if_neg hw2]
                  cases hv : readVarintAux rest1 0 0 with
                  | error e => rw [error_bind, error_bind]
                  | ok lr =>
                    obtain ⟨len, rest2⟩ := lr
                    have hl2 := readVarintAux_ok_length hv
                    simp only [hv, ok_bind]
                    by_cases hbig : 2 ^ 63 ≤ len
                    · rw [if_pos hbig, if_pos hbig]
                    · rw [if_neg hbig, if_neg hbig]
                      by_cases heof : rest2.length < len
                      · rw [if_pos heof, if_pos heof]
                      · rw [if_neg heof, if_neg heof]
                        have hd : (rest2.drop len).length ≤ rest2.length := by
                          rw [List.length_drop]
                          omega
                        exact ih g2 _ (by omega) (by omega)
              · rw [if_neg hf1, if_neg hf1]
                by_cases hf2 : (toInt32 (wire >>> 3) == 2) = true
                · rw [if_pos hf2, if_pos hf2]
                  by_cases hw2 : (wire % 8 != 2) = true
                  · rw [if_pos hw2, if_pos hw2]
                  · rw [if_neg hw2, if_neg hw2]
                    cases hv : readVarintAux rest1 0 0 with
                    | error e => rw [error_bind, error_bind]
                    | ok lr =>
                      obtain ⟨len, rest2⟩ := lr
                      have hl2 := readVarintAux_ok_length hv
                      simp only [hv, ok_bind]
                      by_cases hbig : 2 ^ 63 ≤ len
                      · rw [if_pos hbig, if_pos hbig]
                      · rw [if_neg hbig, if_neg hbig]
                        by_cases heof : rest2.length < len
                        · rw [if_pos heof, if_pos heof]
                        · rw [if_neg heof, if_neg heof]
                          have hd : (rest2.drop len).length ≤ rest2.length := by
                            rw [List.length_drop]
                            omega
                          exact ih g2 _ (by omega) (by omega)
                · rw [if_neg hf2, if_neg hf2]
                  cases hs : skipIndex (b :: tail) with
                  | error e => rw [error_bind, error_bind]
                  | ok skippy =>
                    have hsp := skipIndex_pos hs
                    simp only [hs, ok_bind]
                    by_cases heof : (b :: tail).length < skippy
                    · rw [if_pos heof, if_pos heof]
                    · rw [if_neg heof, if_neg heof]
                      have hd : ((b :: tail).drop skippy).length ≤ tail.length := by
                        rw [List.length_drop]
                        simp only [List.length_cons]
                        omega
                      exact ih g2 _ (by omega) (by omega)

theorem fileFrom_nil (m : File) : fileUnmarshalFrom m [] = .ok m := rfl

theorem fileFrom_step_tag (m : File) (t rest : List Nat)
    (hlen : t.length < 2 ^ 63) :
    fileUnmarshalFrom m (10 :: (putUvarint t.length ++ (t ++ rest)))
      = fileUnmarshalFrom { m with tag := t } rest := by
  unfold fileUnmarshalFrom
  rw [file_step_tag _ _ _ _ hlen]
  refine file_loop_congr _ _ _ ?_ (by omega)
  simp only [List.length_cons, List.length_append]
  omega

theorem fileFrom_step_dataRef (m : File) (d : DataRef) (rest : List Nat)
    (hlen : d.bytes.length < 2 ^ 63) :
    fileUnmarshalFrom m
        (18 :: (putUvarint (dataRefMarshal d).length ++ (dataRefMarshal d ++ rest)))
      = fileUnmarshalFrom { m with dataRefs := m.dataRefs ++ [d] } rest := by
  unfold fileUnmarshalFrom
  rw [file_step_dataRef _ _ _ _ hlen]
  refine file_loop_congr _ _ _ ?_ (by omega)
  simp only [List.length_cons, List.length_append]
  omega

theorem fileFrom_refs : ∀ (ds : List DataRef) (m : File),
    (∀ d ∈ ds, d.bytes.length < 2 ^ 63) →
    fileUnmarshalFrom m
        ((ds.map (fun d => 18 :: (putUvarint (dataRefMarshal d).length ++ dataRefMarshal d))).flatten)
      = .ok { m with dataRefs := m.dataRefs ++ ds } := by
  intro ds
  induction ds with
  | nil =>
    intro m h
    simp only [List.map_nil, List.flatten_nil]
    rw [fileFrom_nil]
    simp
  | cons d ds ih =>
    intro m h
    simp only [List.map_cons, List.flatten_cons, List.cons_append, List.append_assoc]
    rw [fileFrom_step_dataRef _ _ _ (h d (by simp))]
    rw [ih _ (fun e he => h e (by simp [he]))]
    simp

/-- Well-formedness of a File value as a Go value with no unrecognized
bytes: field byte lengths fit in a Go int and XXX_unrecognized is empty. -/
def fileWf (f : File) : Prop :=
  f.tag.length < 2 ^ 63 ∧ (∀ d ∈ f.dataRefs, d.bytes.length < 2 ^ 63) ∧ f.u = []

instance (f : File) : Decidable (fileWf f) := by
  unfold fileWf
  exact inferInstance

theorem fileUnmarshal_marshal {f : File} (hwf : fileWf f) :
    fileUnmarshal (fileMarshal f) = .ok f := by
  obtain ⟨h1, h2, h3⟩ := hwf
  obtain ⟨t, ds, u⟩ := f
  simp only at h1 h2 h3
  subst h3
  unfold fileUnmarshal fileMarshal
  by_cases ht : t.length > 0
  · rw [if_pos ht]
    simp only [List.append_nil, List.cons_append, List.append_assoc]
    rw [fileFrom_step_tag _ _ _ h1, fileFrom_refs ds _ h2]
    rfl
  · rw [if_neg ht]
    have htz : t = [] := List.eq_nil_of_length_eq_zero (by omega)
    subst htz
    simp only [List.append_nil, List.nil_append]
    rw [fileFrom_refs ds _ h2]
    rfl

theorem index_loop_nil (f : Nat) (m : Index) : indexUnmarshalLoop f m [] = .ok m := by
  cases f <;> rfl

theorem index_step_path (fuel : Nat) (m : Index) (p rest : List Nat)
    (hlen : p.length < 2 ^ 63) :
    indexUnmarshalLoop (fuel + 1) m (10 :: (putUvarint p.length ++ (p ++ rest)))
      = indexUnmarshalLoop fuel { m with path := p } rest := by
  have htag : readVarintAux (10 :: (putUvarint p.length ++ (p ++ rest))) 0 0
      = .ok (10, putUvarint p.length ++ (p ++ rest)) := read_tag (by omega) _
  have hval : readVarintAux (putUvarint p.length ++ (p ++ rest)) 0 0
      = .ok (p.length, p ++ rest) := readUvarint_put (p ++ rest) (by omega)
  rw [indexUnmarshalLoop, htag, ok_bind]
  norm_num [toInt32, Nat.shiftRight_eq_div_pow]
  rw [hval, ok_bind]
  simp only []
  rw [if_neg (by omega), if_neg (by simp)]
  rw [List.take_left' rfl, List.drop_left' rfl]

theorem index_step_range (fuel : Nat) (m : Index) (r : Range) (rest : List Nat)
    (hlen : (rangeMarshal r).length < 2 ^ 63)
    (hsub : rangeUnmarshalFrom (m.range.getD rangeDefault) (rangeMarshal r) = .ok r) :
    indexUnmarshalLoop (fuel + 1) m
        (18 :: (putUvarint (rangeMarshal r).length ++ (rangeMarshal r ++ rest)))
      = indexUnmarshalLoop fuel { m with range := some r } rest := by
  have htag : readVarintAux
        (18 :: (putUvarint (rangeMarshal r).length ++ (rangeMarshal r ++ rest))) 0 0
      = .ok (18, putUvarint (rangeMarshal r).length ++ (rangeMarshal r ++ rest)) :=
    read_tag (by omega) _
  have hval : readVarintAux (putUvarint (rangeMarshal r).length ++ (rangeMarshal r ++ rest)) 0 0
      = .ok ((rangeMarshal r).length, rangeMarshal r ++ rest) :=
    readUvarint_put (rangeMarshal r ++ rest) (by omega)
  rw [indexUnmarshalLoop, htag, ok_bind]
  norm_num [toInt32, Nat.shiftRight_eq_div_pow]
  rw [hval, ok_bind]
  simp only []
  rw [if_neg (by omega), if_neg (by simp)]
  rw [List.take_left' rfl, List.drop_left' rfl, hsub, ok_bind]

theorem index_step_file (fuel : Nat) (m : Index) (f : File) (rest : List Nat)
    (hlen : (fileMarshal f).length < 2 ^ 63)
    (hsub : fileUnmarshalFrom (m.file.getD fileDefault) (fileMarshal f) = .ok f) :
    indexUnmarshalLoop (fuel + 1) m
        (26 :: (putUvarint (fileMarshal f).length ++ (fileMarshal f ++ rest)))
      = indexUnmarshalLoop fuel { m with file := some f } rest := by
  have htag : readVarintAux
        (26 :: (putUvarint (fileMarshal f).length ++ (fileMarshal f ++ rest))) 0 0
      = .ok (26, putUvarint (fileMarshal f).length ++ (fileMarshal f ++ rest)) :=
    read_tag (by omega) _
  have hval : readVarintAux (putUvarint (fileMarshal f).length ++ (fileMarshal f ++ rest)) 0 0
      = .ok ((fileMarshal f).length, fileMarshal f ++ rest) :=
    readUvarint_put (fileMarshal f ++ rest) (by omega)
  rw [indexUnmarshalLoop, htag, ok_bind]
  norm_num [toInt32, Nat.shiftRight_eq_div_pow]
  rw [hval, ok_bind]
  simp only []
  rw [if_neg (by omega), if_neg (by simp)]
  rw [List.take_left' rfl, List.drop_left' rfl, hsub, ok_bind]

theorem index_loop_congr : ∀ (f1 : Nat) {data : List Nat} (f2 : Nat) (m : Index),
    data.length < f1 → data.length < f2 →
    indexUnmarshalLoop f1 m data = indexUnmarshalLoop f2 m data := by
  intro f1
  induction f1 with
  | zero => intro data f2 m h1 h2; omega
  | succ f1 ih =>
    intro data f2 m h1 h2
    cases data with
    | nil => rw [index_loop_nil, index_loop_nil]
    | cons b tail =>
      cases f2 with
      | zero => omega
      | succ g2 =>
        rw [indexUnmarshalLoop, indexUnmarshalLoop]
        cases hr : readVarintAux (b :: tail) 0 0 with
        | error e => rw [error_bind, error_bind]
        | ok wr =>
          obtain ⟨wire, rest1⟩ := wr
          have hl1 := readVarintAux_ok_length hr
          simp only [hr, ok_bind]
          simp only [List.length_cons] at h1 h2 hl1
          by_cases hw4 : (wire % 8 == 4) = true
          · rw [if_pos hw4, if_pos hw4]
          · rw [if_neg hw4, if_neg hw4]
            by_cases hf0 : toInt32 (wire >>> 3) ≤ 0
            · rw [if_pos hf0, if_pos hf0]
            · rw [if_neg hf0, if_neg hf0]
              by_cases hf1 : (toInt32 (wire >>> 3) == 1) = true
              · rw [if_pos hf1, if_pos hf1]
                by_cases hw2 : (wire % 8 != 2) = true
                · rw [if_pos hw2, if_pos hw2]
                · rw [if_neg hw2, if_neg hw2]
                  cases hv : readVarintAux rest1 0 0 with
                  | error e => rw [error_bind, error_bind]
                  | ok lr =>
                    obtain ⟨len, rest2⟩ := lr
                    have hl2 := readVarintAux_ok_length hv
                    simp only [hv, ok_bind]
                    by_cases hbig : 2 ^ 63 ≤ len
                    · rw [if_pos hbig, if_pos hbig]
                    · rw [if_neg hbig, if_neg hbig]
                      by_cases heof : rest2.length < len
                      · rw [if_pos heof, if_pos heof]
                      · rw [if_neg heof, if_neg heof]
                        have hd : (rest2.drop len).length ≤ rest2.length := by
                          rw [List.length_drop]
                          omega
                        exact ih g2 _ (by omega) (by omega)
              · rw [if_neg hf1, if_neg hf1]
                by_cases hf2 : (toInt32 (wire >>> 3) == 2) = true
                · rw [if_pos hf2, if_pos hf2]
                  by_cases hw2 : (wire % 8 != 2) = true
                  · rw [if_pos hw2, if_pos hw2]
                  · rw [if_neg hw2, if_neg hw2]
                    cases hv : readVarintAux rest1 0 0 with
                    | error e => rw [error_bind, error_bind]
                    | ok lr =>
                      obtain ⟨len, rest2⟩ := lr
                      have hl2 := readVarintAux_ok_length hv
                      simp only [hv, ok_bind]
                      by_cases hbig : 2 ^ 63 ≤ len
                      · rw [if_pos hbig, if_pos hbig]
                      · rw [if_neg hbig, if_neg hbig]
                        by_cases heof : rest2.length < len
                        · rw [if_pos heof, if_pos heof]
                        · rw [if_neg heof, if_neg heof]
                          cases hrs : rangeUnmarshalFrom (m.range.getD rangeDefault) (rest2.take len) with
                          | error e => rw [error_bind, error_bind]
                          | ok r =>
                            simp only [hrs, ok_bind]
                            have hd : (rest2.drop len).length ≤ rest2.length := by
                              rw [List.length_drop]
                              omega
                            exact ih g2 _ (by omega) (by omega)
                · rw [if_neg hf2, if_neg hf2]
                  by_cases hf3 : (toInt32 (wire >>> 3) == 3) = true
                  · rw [if_pos hf3, if_pos hf3]
                    by_cases hw2 : (wire % 8 != 2) = true
                    · rw [if_pos hw2, if_pos hw2]
                    · rw [if_neg hw2, if_neg hw2]
                      cases hv : readVarintAux rest1 0 0 with
                      | error e => rw [error_bind, error_bind]
                      | ok lr =>
                        obtain ⟨len, rest2⟩ := lr
                        have hl2 := readVarintAux_ok_length hv
                        simp only [hv, ok_bind]
                        by_cases hbig : 2 ^ 63 ≤ len
                        · rw [if_pos hbig, if_pos hbig]
                        · rw [if_neg hbig, if_neg hbig]
                          by_cases heof : rest2.length < len
                          · rw [if_pos heof, if_pos heof]
                          · rw [if_neg heof, if_neg heof]
                            cases hfs : fileUnmarshalFrom (m.file.getD fileDefault) (rest2.take len) with
                            | error e => rw [error_bind, error_bind]
                            | ok f =>
                              simp only [hfs, ok_bind]
                              have hd : (rest2.drop len).length ≤ rest2.length := by
                                rw [List.length_drop]
                                omega
                              exact ih g2 _ (by omega) (by omega)
                  · rw [if_neg hf3, if_neg hf3]
                    cases hs : skipIndex (b :: tail) with
                    | error e => rw [error_bind, error_bind]
                    | ok skippy =>
                      have hsp := skipIndex_pos hs
                      simp only [hs, ok_bind]
                      by_cases heof : (b :: tail).length < skippy
                      · rw [if_pos heof, if_pos heof]
                      · rw [if_neg heof, if_neg heof]
                        have hd : ((b :: tail).drop skippy).length ≤ tail.length := by
                          rw [List.length_drop]
                          simp only [List.length_cons]
                          omega
                        exact ih g2 _ (by omega) (by omega)

theorem indexFrom_nil (m : Index) : indexUnmarshalFrom m [] = .ok m := rfl

theorem indexFrom_step_path (m : Index) (p rest : List Nat)
    (hlen : p.length < 2 ^ 63) :
    indexUnmarshalFrom m (10 :: (putUvarint p.length ++ (p ++ rest)))
      = indexUnmarshalFrom { m with path := p } rest := by
  unfold indexUnmarshalFrom
  rw [index_step_path _ _ _ _ hlen]
  refine index_loop_congr _ _ _ ?_ (by omega)
  simp only [List.length_cons, List.length_append]
  omega

theorem indexFrom_step_range (m : Index) (r : Range) (rest : List Nat)
    (hnone : m.range = none) (hwfr : rangeWf r) (hsz : rangeSize r < 2 ^ 63) :
    indexUnmarshalFrom m
        (18 :: (putUvarint (rangeMarshal r).length ++ (rangeMarshal r ++ rest)))
      = indexUnmarshalFrom { m with range := some r } rest := by
  have hlen : (rangeMarshal r).length < 2 ^ 63 := by
    rw [rangeMarshal_length]
    exact hsz
  have hsub : rangeUnmarshalFrom (m.range.getD rangeDefault) (rangeMarshal r) = .ok r := by
    rw [hnone]
    exact rangeUnmarshal_marshal hwfr
  unfold indexUnmarshalFrom
  rw [index_step_range _ _ _ _ hlen hsub]
  refine index_loop_congr _ _ _ ?_ (by omega)
  simp only [List.length_cons, List.length_append]
  omega

theorem indexFrom_step_file (m : Index) (f : File) (rest : List Nat)
    (hnone : m.file = none) (hwff : fileWf f) (hsz : fileSize f < 2 ^ 63) :
    indexUnmarshalFrom m
        (26 :: (putUvarint (fileMarshal f).length ++ (fileMarshal f ++ rest)))
      = indexUnmarshalFrom { m with file := some f } rest := by
  have hlen : (fileMarshal f).length < 2 ^ 63 := by
    rw [fileMarshal_length]
    exact hsz
  have hsub : fileUnmarshalFrom (m.file.getD fileDefault) (fileMarshal f) = .ok f := by
    rw [hnone]
    exact fileUnmarshal_marshal hwff
  unfold indexUnmarshalFrom
  rw [index_step_file _ _ _ _ hlen hsub]
  refine index_loop_congr _ _ _ ?_ (by omega)
  simp only [List.length_cons, List.length_append]
  omega

theorem indexFrom_step_path_last (m : Index) (p : List Nat)
    (hlen : p.length < 2 ^ 63) :
    indexUnmarshalFrom m (10 :: (putUvarint p.length ++ p)) = .ok { m with path := p } := by
  have h := indexFrom_step_path m p [] hlen
  rw [List.append_nil] at h
  rw [h, indexFrom_nil]

theorem indexFrom_step_range_last (m : Index) (r : Range)
    (hnone : m.range = none) (hwfr : rangeWf r) (hsz : rangeSize r < 2 ^ 63) :
    indexUnmarshalFrom m (18 :: (putUvarint (rangeMarshal r).length ++ rangeMarshal r))
      = .ok { m with range := some r } := by
  have h := indexFrom_step_range m r [] hnone hwfr hsz
  rw [List.append_nil] at h
  rw [h, indexFrom_nil]

theorem indexFrom_step_file_last (m : Index) (f : File)
    (hnone : m.file = none) (hwff : fileWf f) (hsz : fileSize f < 2 ^ 63) :
    indexUnmarshalFrom m (26 :: (putUvarint (fileMarshal f).length ++ fileMarshal f))
      = .ok { m with file := some f } := by
  have h := indexFrom_step_file m f [] hnone hwff hsz
  rw [List.append_nil] at h
  rw [h, indexFrom_nil]

/-- Well-formedness of an Index value as a Go value with no unrecognized
bytes: the path length and the nested message sizes fit in a Go int, the
nested messages are themselves well formed, and XXX_unrecognized is empty
(stated via getD so the condition is trivially met by the defaults when a
nested message is absent). -/
def indexWf (m : Index) : Prop :=
  m.path.length < 2 ^ 63
    ∧ rangeWf (m.range.getD rangeDefault) ∧ rangeSize (m.range.getD rangeDefault) < 2 ^ 63
    ∧ fileWf (m.file.getD fileDefault) ∧ fileSize (m.file.getD fileDefault) < 2 ^ 63
    ∧ m.u = []

instance (m : Index) : Decidable (indexWf m) := by
  unfold indexWf
  exact inferInstance

theorem indexUnmarshal_marshal {m : Index} (hwf : indexWf m) :
    indexUnmarshal (indexMarshal m) = .ok m := by
  obtain ⟨h1, h2, h3, h4, h5, h6⟩ := hwf
  obtain ⟨p, ro, fo, u⟩ := m
  simp only at h1 h2 h3 h4 h5 h6
  subst h6
  unfold indexUnmarshal indexMarshal
  by_cases hp : p.length > 0
  · rw [if_pos hp]
    cases ro with
    | none =>
      cases fo with
      | none =>
        simp only [List.append_nil, List.cons_append, List.append_assoc]
        rw [indexFrom_step_path_last _ _ h1]
        rfl
      | some f =>
        simp only [Option.getD_some] at h4 h5
        simp only [List.append_nil, List.cons_append, List.append_assoc]
        rw [indexFrom_step_path _ _ _ h1, indexFrom_step_file_last _ _ rfl h4 h5]
        rfl
    | some r =>
      simp only [Option.getD_some] at h2 h3
      cases fo with
      | none =>
        simp only [List.append_nil, List.cons_append, List.append_assoc]
        rw [indexFrom_step_path _ _ _ h1, indexFrom_step_range_last _ _ rfl h2 h3]
        rfl
      | some f =>
        simp only [Option.getD_some] at h4 h5
        simp only [List.append_nil, List.cons_append, List.append_assoc]
        rw [indexFrom_step_path _ _ _ h1, indexFrom_step_range _ _ _ rfl h2 h3,
          indexFrom_step_file_last _ _ rfl h4 h5]
        rfl
  · rw [if_neg hp]
    have hpz : p = [] := List.eq_nil_of_length_eq_zero (by omega)
    subst hpz
    cases ro with
    | none =>
      cases fo with
      | none =>
        simp only [List.append_nil, List.nil_append]
        rw [indexFrom_nil]
        rfl
      | some f =>
        simp only [Option.getD_some] at h4 h5
        simp only [List.append_nil, List.nil_append]
        rw [indexFrom_step_file_last _ _ rfl h4 h5]
        rfl
    | some r =>
      simp only [Option.getD_some] at h2 h3
      cases fo with
      | none =>
        simp only [List.append_nil, List.nil_append]
        rw [indexFrom_step_range_last _ _ rfl h2 h3]
        rfl
      | some f =>
        simp only [Option.getD_some] at h4 h5
        simp only [List.append_nil, List.nil_append, List.cons_append, List.append_assoc]
        rw [indexFrom_step_range _ _ _ rfl h2 h3, indexFrom_step_file_last _ _ rfl h4 h5]
        rfl

/-- C10: for every Index, Range, and File message value (a Go value: field
sizes within int64/int range, no unrecognized-field bytes), Marshal produces
a buffer whose length equals Size, and Unmarshal applied to that buffer
succeeds and reconstructs a message equal to the original - the
serialization round trip is the identity. -/
theorem c10_marshal_size_unmarshal_roundtrip :
    (∀ r : Range, rangeWf r →
      (rangeMarshal r).length = rangeSize r ∧ rangeUnmarshal (rangeMarshal r) = .ok r)
    ∧ (∀ f : File, fileWf f →
      (fileMarshal f).length = fileSize f ∧ fileUnmarshal (fileMarshal f) = .ok f)
    ∧ (∀ m : Index, indexWf m →
      (indexMarshal m).length = indexSize m ∧ indexUnmarshal (indexMarshal m) = .ok m) :=
  ⟨fun r h => ⟨rangeMarshal_length r, rangeUnmarshal_marshal h⟩,
   fun f h => ⟨fileMarshal_length f, fileUnmarshal_marshal h⟩,
   fun m h => ⟨indexMarshal_length m, indexUnmarshal_marshal h⟩⟩

/-- A concrete Index with both nested messages populated, used to witness
the round-trip theorem at an evaluated input. -/
def c10Ex : Index :=
  ⟨[97, 98],
   some ⟨5, [99, 100], some ⟨[1, 2, 3]⟩, []⟩,
   some ⟨[7], [⟨[4, 5]⟩, ⟨[]⟩], []⟩,
   []⟩

theorem c10_witness :
    indexWf c10Ex
      ∧ (indexMarshal c10Ex).length = indexSize c10Ex
      ∧ indexUnmarshal (indexMarshal c10Ex) = .ok c10Ex :=
  ⟨by decide,
   (c10_marshal_size_unmarshal_roundtrip.2.2 c10Ex (by decide)).1,
   (c10_marshal_size_unmarshal_roundtrip.2.2 c10Ex (by decide)).2⟩

end IndexPb

